import Mathlib

/-!
# RTT terminal i/o (`firmware/source/bmp/rtt_if.c`)

Shallow embedding of the usb-uart receive ring buffer (`recv_buf`, `recv_head`,
`recv_tail`, `recv_bytes_free`, `rtt_serial_receive_callback`, `rtt_getchar`,
`rtt_nodata`) and of the chunked, timeout-bounded writer `rtt_write`.

Conventions:
* `uint32_t` values are `Nat` with an explicit `% UINT32_MOD` wherever the C
  arithmetic can wrap;
* a `char` is an `Int` (its value under the platform's signedness of `char`);
* `RTT_DOWN_BUF_SIZE` is declared outside this file, so it is the parameter `N`
  of every function that uses `sizeof(recv_buf)`;
* the TinyUSB transport and the millisecond clock are external: the bytes a
  `tud_cdc_n_read` call returned are an argument, and the answers of
  `tud_cdc_n_write` and `platform_time_ms` are given by an environment.
-/

namespace RttIf

/-! ## Machine arithmetic -/

/-- Number of values of a `uint32_t`. -/
def UINT32_MOD : Nat := 4294967296

/-- Addition `a + b` on `uint32_t`. -/
def add32 (a b : Nat) : Nat := (a + b) % UINT32_MOD

/-- Subtraction `a - b` on `uint32_t` (operands below `UINT32_MOD`), wrapping on
underflow. -/
def sub32 (a b : Nat) : Nat := (a + UINT32_MOD - b) % UINT32_MOD

/-- The cast `(uint8_t)c` of a `char` value. -/
def to_uint8 (c : Int) : Int := c % 256

/-- The `char` that holds the raw byte `b` (`0..255`) when `char` is signed
(`isSigned = true`) or unsigned. -/
def char_of_byte (isSigned : Bool) (b : Nat) : Int :=
  if isSigned && decide (128 ≤ b) then (b : Int) - 256 else (b : Int)

/-! ## The receive ring buffer -/

/-- The file-scope variables `recv_buf`, `recv_head`, `recv_tail`. -/
structure RecvState where
  recv_buf : List Int
  recv_head : Nat
  recv_tail : Nat
deriving DecidableEq, Repr

/-- The state at program start: zero-initialised statics. -/
def recv_init (N : Nat) : RecvState :=
  { recv_buf := List.replicate N 0, recv_head := 0, recv_tail := 0 }

/-- Function `recv_bytes_free()`: number of free bytes in the usb receive buffer. -/
def recv_bytes_free (N : Nat) (st : RecvState) : Nat :=
  if st.recv_tail ≤ st.recv_head then
    sub32 (add32 (sub32 N st.recv_head) st.recv_tail) 1
  else
    sub32 (sub32 st.recv_tail st.recv_head) 1

/-- The copy loop of `rtt_serial_receive_callback`, run over the bytes of
`usb_buf` that are still to be copied. -/
def recv_copy (N : Nat) : RecvState → List Int → RecvState
  | st, [] => st
  | st, c :: rest =>
    let next_recv_head := add32 st.recv_head 1 % N
    if next_recv_head = st.recv_tail then
      st
    else
      recv_copy N
        { st with recv_buf := st.recv_buf.set st.recv_head c, recv_head := next_recv_head }
        rest

/-- Function `rtt_serial_receive_callback()`; `usb_buf` holds the `len` bytes that
`tud_cdc_n_read(USB_SERIAL_TARGET, usb_buf, 64)` returned. -/
def rtt_serial_receive_callback (N : Nat) (rtt_flag_skip : Bool) (usb_buf : List Int)
    (st : RecvState) : RecvState :=
  let len := usb_buf.length
  if rtt_flag_skip && decide (len > recv_bytes_free N st) then
    st
  else
    recv_copy N st usb_buf

set_option linter.unusedVariables false in
/-- Function `rtt_getchar(channel)`: the returned `int32_t` and the state afterwards.
The source discards the argument with `(void)channel;`. -/
def rtt_getchar (N : Nat) (channel : Nat) (st : RecvState) : Int × RecvState :=
  if st.recv_head = st.recv_tail then
    (-1, st)
  else
    (to_uint8 (st.recv_buf.getD st.recv_tail 0),
      { st with recv_tail := add32 st.recv_tail 1 % N })

/-- Function `rtt_nodata(channel)`: true if no characters are available for
reading; only down channel 0 is supported. -/
def rtt_nodata (channel : Nat) (st : RecvState) : Bool :=
  if channel ≠ 0 then true else decide (st.recv_head = st.recv_tail)

/-! ### Derived views of the buffer -/

/-- State invariant: the array has `N` slots and both indices are inside it. -/
def RecvState.WF (N : Nat) (st : RecvState) : Prop :=
  st.recv_buf.length = N ∧ st.recv_head < N ∧ st.recv_tail < N ∧ N < UINT32_MOD

/-- Circular distance from index `t` forward to index `h`. -/
def ring_dist (N t h : Nat) : Nat := (h + N - t) % N

/-- The `n` slots read forward from index `t`, wrapping at `N`. -/
def ring_walk (buf : List Int) (N : Nat) : Nat → Nat → List Int
  | _, 0 => []
  | t, n + 1 => buf.getD t 0 :: ring_walk buf N ((t + 1) % N) n

/-- The queued (unread) chars, oldest first. -/
def pending (N : Nat) (st : RecvState) : List Int :=
  ring_walk st.recv_buf N st.recv_tail (ring_dist N st.recv_tail st.recv_head)

/-- Calls `rtt_getchar(channel)` `n` times, collecting the returned values. -/
def getchar_many (N : Nat) (channel : Nat) : Nat → RecvState → List Int × RecvState
  | 0, st => ([], st)
  | n + 1, st =>
    let r := rtt_getchar N channel st
    let rs := getchar_many N channel n r.2
    (r.1 :: rs.1, rs.2)

/-- Runs `rtt_serial_receive_callback` once per entry of `calls`, each entry
giving the value of `rtt_flag_skip` and the bytes read by that call. -/
def deliver (N : Nat) : List (Bool × List Int) → RecvState → RecvState
  | [], st => st
  | (skip, usb_buf) :: rest, st =>
    deliver N rest (rtt_serial_receive_callback N skip usb_buf st)

/-- One iteration of the copy loop that does not hit the overflow `break`. -/
def push_char (N : Nat) (st : RecvState) (c : Int) : RecvState :=
  { st with recv_buf := st.recv_buf.set st.recv_head c,
            recv_head := add32 st.recv_head 1 % N }

/-- All bytes handed over by a sequence of callback invocations, in order. -/
def batch_bytes {α β : Type} : List (β × List α) → List α
  | [] => []
  | c :: rest => c.2 ++ batch_bytes rest

/-- One call of the firmware on the receive side: the usb-uart callback with
the flag and the bytes it read, or `rtt_getchar(channel)`. -/
inductive RecvOp where
  | receive (rtt_flag_skip : Bool) (usb_buf : List Int)
  | getchar (channel : Nat)
deriving DecidableEq, Repr

/-- The state after one receive-side call. -/
def RecvOp.apply (N : Nat) (st : RecvState) : RecvOp → RecvState
  | .receive skip usb_buf => rtt_serial_receive_callback N skip usb_buf st
  | .getchar channel => (rtt_getchar N channel st).2

/-- The state after a sequence of receive-side calls, starting from program start. -/
def recv_run (N : Nat) (ops : List RecvOp) : RecvState :=
  ops.foldl (RecvOp.apply N) (recv_init N)

/-- Number of consecutive `rtt_getchar(0)` calls that return a byte, looking at
most `fuel` calls ahead. -/
def available (N : Nat) : Nat → RecvState → Nat
  | 0, _ => 0
  | fuel + 1, st =>
    let r := rtt_getchar N 0 st
    if r.1 = -1 then 0 else available N fuel r.2 + 1

/-- The copy loop of `rtt_serial_receive_callback` with every array access
checked: `i` is the loop counter, `n` the number of iterations still to run
(`len - i`), and the result is `none` as soon as `usb_buf[i]` would be read
outside the `len` bytes received or outside the 64-byte array, or
`recv_buf[recv_head]` would be written outside `recv_buf`. -/
def recv_copy_checked (N : Nat) (usb_buf : List Int) : Nat → Nat → RecvState → Option RecvState
  | 0, _, st => some st
  | n + 1, i, st =>
    let next_recv_head := add32 st.recv_head 1 % N
    if next_recv_head = st.recv_tail then
      some st
    else if i < usb_buf.length ∧ i < 64 ∧ st.recv_head < st.recv_buf.length then
      recv_copy_checked N usb_buf n (i + 1)
        { st with recv_buf := st.recv_buf.set st.recv_head (usb_buf.getD i 0),
                  recv_head := next_recv_head }
    else
      none

/-- The callback `rtt_serial_receive_callback()` with checked array accesses. -/
def rtt_serial_receive_callback_checked (N : Nat) (rtt_flag_skip : Bool) (usb_buf : List Int)
    (st : RecvState) : Option RecvState :=
  let len := usb_buf.length
  if rtt_flag_skip && decide (len > recv_bytes_free N st) then
    some st
  else
    recv_copy_checked N usb_buf len 0 st

set_option linter.unusedVariables false in
/-- The function `rtt_getchar(channel)` with the access `recv_buf[recv_tail]`
checked: `none` when `recv_tail` is outside `recv_buf`. -/
def rtt_getchar_checked (N : Nat) (channel : Nat) (st : RecvState) : Option (Int × RecvState) :=
  if st.recv_head = st.recv_tail then
    some (-1, st)
  else if st.recv_tail < st.recv_buf.length then
    some (to_uint8 (st.recv_buf.getD st.recv_tail 0),
      { st with recv_tail := add32 st.recv_tail 1 % N })
  else
    none

/-- Index invariant alone: `N` slots and both indices inside them. -/
def RecvState.InBounds (N : Nat) (st : RecvState) : Prop :=
  st.recv_buf.length = N ∧ st.recv_head < N ∧ st.recv_tail < N

/-! ## The writer `rtt_write` -/

/-- What the transport sees: `write p plen ret` is a call
`tud_cdc_n_write(USB_SERIAL_TARGET, buf + p, plen)` that returned `ret`, and
`flush` is a call of `tud_cdc_n_write_flush`. -/
inductive Event where
  | write (p plen ret : Nat)
  | flush
deriving DecidableEq, Repr

/-- The external collaborators of `rtt_write`: the three readiness signals, the
answer of the `i`-th `tud_cdc_n_write` call (given its offset and length), and
the value of the `j`-th `platform_time_ms` reading. -/
structure Env where
  usb_get_config : Bool
  gdb_serial_get_dtr : Bool
  tud_cdc_n_connected : Bool
  tud_cdc_n_write : Nat → Nat → Nat → Nat
  platform_time_ms : Nat → Nat

/-- Calls made so far during one `rtt_write`: how many transport writes, how
many clock readings, and the transport's view in order. -/
structure IoLog where
  writes : Nat
  readings : Nat
  trace : List Event
deriving DecidableEq, Repr

/-- Control points of `rtt_write`. -/
inductive Config where
  /-- At the test `p < len` of the `for`. -/
  | loop_head (p : Nat) (io : IoLog)
  /-- At the `tud_cdc_n_write` call of the `while`, for the chunk at `p`. -/
  | attempt (p plen start_ms : Nat) (io : IoLog)
  /-- The function has returned `ret`. -/
  | done (ret : Nat) (io : IoLog)
deriving DecidableEq, Repr

/-- Modelled from the spec: the macro `MIN` comes from a header outside this
file; it yields the smaller of its two operands, so that a chunk is the rest of
the payload but at most 64 bytes. -/
def MIN (a b : Nat) : Nat := if a < b then a else b

/-- Entry of `rtt_write(channel, buf, len)` up to the first loop test. -/
def rtt_write_entry (env : Env) (channel len : Nat) : Config :=
  let io : IoLog := { writes := 0, readings := 0, trace := [] }
  if channel ≠ 0 then
    .done len io
  else if len ≠ 0 && env.usb_get_config && env.gdb_serial_get_dtr
      && env.tud_cdc_n_connected then
    .loop_head 0 io
  else
    .done len io

/-- The `uint32_t` returned by the `j`-th call of `platform_time_ms()`. -/
def clock_reading (env : Env) (j : Nat) : Nat := env.platform_time_ms j % UINT32_MOD

/-- One step of the loops of `rtt_write`. -/
def rtt_write_step (env : Env) (len : Nat) : Config → Config
  | .loop_head p io =>
    if p < len then
      let plen := MIN 64 (sub32 len p)
      let start_ms := clock_reading env io.readings
      .attempt p plen start_ms { io with readings := io.readings + 1 }
    else
      .done len { io with trace := io.trace ++ [Event.flush] }
  | .attempt p plen start_ms io =>
    let ret := env.tud_cdc_n_write io.writes p plen % UINT32_MOD
    let io1 : IoLog :=
      { io with writes := io.writes + 1, trace := io.trace ++ [Event.write p plen ret] }
    if ret ≠ plen then
      let now := clock_reading env io1.readings
      let io2 : IoLog := { io1 with readings := io1.readings + 1 }
      if sub32 now start_ms ≥ 25 then
        .done 0 io2
      else
        .attempt p plen start_ms io2
    else
      .loop_head (add32 p 64) io1
  | .done ret io => .done ret io

/-- Runs `fuel` steps from a control point. -/
def rtt_write_run (env : Env) (len : Nat) : Nat → Config → Config
  | 0, c => c
  | fuel + 1, c => rtt_write_run env len fuel (rtt_write_step env len c)

/-- Function `rtt_write(channel, buf, len)` within `fuel` loop steps: the returned value
and the calls made, or `none` when the function has not returned yet. -/
def rtt_write (env : Env) (channel len : Nat) (fuel : Nat) : Option (Nat × IoLog) :=
  match rtt_write_run env len fuel (rtt_write_entry env channel len) with
  | .done ret io => some (ret, io)
  | _ => none

/-- Number of chunks of a payload of `len` bytes: `ceil(len / 64)`. -/
def chunk_count (len : Nat) : Nat := (len + 63) / 64

/-- The transport's view of `k` chunks of a `len`-byte payload, each accepted
in full on its first attempt, starting with chunk number `i`. -/
def full_writes (len : Nat) : Nat → Nat → List Event
  | _, 0 => []
  | i, k + 1 =>
    Event.write (64 * i) (MIN 64 (len - 64 * i)) (MIN 64 (len - 64 * i))
      :: full_writes len (i + 1) k

/-- The transport's view of `n` attempts at the chunk `(p, plen)`, the first of
them being transport write number `w`, with whatever each call returned. -/
def attempt_writes (env : Env) (p plen : Nat) : Nat → Nat → List Event
  | _, 0 => []
  | w, n + 1 =>
    Event.write p plen (env.tud_cdc_n_write w p plen % UINT32_MOD)
      :: attempt_writes env p plen (w + 1) n

/-- An environment with the gate open, a transport that accepts every chunk in
full and a clock standing at 0. -/
def accept_all : Env :=
  { usb_get_config := true, gdb_serial_get_dtr := true, tud_cdc_n_connected := true,
    tud_cdc_n_write := fun _ _ plen => plen, platform_time_ms := fun _ => 0 }

/-- An environment with the gate open, a transport that never accepts a byte
and a clock that advances 10 ms per reading from 1000 up to 2000. -/
def accept_none : Env :=
  { usb_get_config := true, gdb_serial_get_dtr := true, tud_cdc_n_connected := true,
    tud_cdc_n_write := fun _ _ _ => 0, platform_time_ms := fun j => 1000 + 10 * min j 100 }

/-- Every chunk that starts below offset `p` occurs in the trace as a write
that the transport accepted in full. -/
def chunks_sent (len : Nat) (trace : List Event) (p : Nat) : Prop :=
  ∀ i, 64 * i < p →
    Event.write (64 * i) (MIN 64 (len - 64 * i)) (MIN 64 (len - 64 * i)) ∈ trace

/-- Invariant of the loops of `rtt_write`: the offset is a multiple of 64, no
flush has happened, and every chunk below the offset has been accepted. -/
def Config.Inv (len : Nat) : Config → Prop
  | .loop_head p io =>
    p % 64 = 0 ∧ p < UINT32_MOD ∧ Event.flush ∉ io.trace ∧ chunks_sent len io.trace p
  | .attempt p plen _ io =>
    p % 64 = 0 ∧ p < len ∧ plen = MIN 64 (len - p) ∧ Event.flush ∉ io.trace
      ∧ chunks_sent len io.trace p
  | .done _ _ => True

/-- The calls made so far at a control point. -/
def Config.io : Config → IoLog
  | .loop_head _ io => io
  | .attempt _ _ _ io => io
  | .done _ io => io

/-- Control points of a call that is still inside its loops, with the offset a
multiple of 64 below `2^32`. -/
def Config.Looping : Config → Prop
  | .loop_head p _ => p % 64 = 0 ∧ p < UINT32_MOD
  | .attempt p plen _ _ => p % 64 = 0 ∧ p < UINT32_MOD ∧ plen ≤ 64
  | .done _ _ => False

/-- The bytes a transport call is handed, `plen` bytes from `buf + p`; a flush
carries none. -/
def Event.bytes (buf : List Int) : Event → List Int
  | .write p plen _ => (buf.drop p).take plen
  | .flush => []

/-- The bytes the transport took in a call: the first `ret` of those handed over. -/
def Event.accepted (buf : List Int) : Event → List Int
  | .write p plen ret => ((buf.drop p).take plen).take ret
  | .flush => []

/-- All bytes handed to the transport over a trace, in order. -/
def trace_bytes (buf : List Int) : List Event → List Int
  | [] => []
  | e :: rest => e.bytes buf ++ trace_bytes buf rest

/-- All bytes the transport took over a trace, in order. -/
def trace_accepted (buf : List Int) : List Event → List Int
  | [] => []
  | e :: rest => e.accepted buf ++ trace_accepted buf rest

/-- An environment with the gate open, a transport that takes 3 bytes of its
first write call and every later call in full, and a clock standing at 0. -/
def accept_partial : Env :=
  { usb_get_config := true, gdb_serial_get_dtr := true, tud_cdc_n_connected := true,
    tud_cdc_n_write := fun i _ plen => if i = 0 then 3 else plen,
    platform_time_ms := fun _ => 0 }

/-- An environment with the gate open, a transport that never accepts a byte
and a millisecond counter that starts 10 ms before its wrap and advances 5 ms
per reading. -/
def wrapping_clock : Env :=
  { usb_get_config := true, gdb_serial_get_dtr := true, tud_cdc_n_connected := true,
    tud_cdc_n_write := fun _ _ _ => 0,
    platform_time_ms := fun j => 4294967286 + 5 * j }

/-- Number of transport writes, and equally of clock readings, that the first
`i` chunks take when chunk `k` is accepted in full after `retries k` failed
attempts: each chunk costs one start reading, `retries k` failed writes with
one reading each, and the accepted write. -/
def calls_before (retries : Nat → Nat) : Nat → Nat
  | 0 => 0
  | i + 1 => calls_before retries i + (retries i + 1)

/-- The transport's view of the first `i` chunks when chunk `k` is accepted in
full after `retries k` failed attempts: for each chunk its failed attempts, with
whatever they returned, and then its accepted write. -/
def accepted_trace (env : Env) (len : Nat) (retries : Nat → Nat) : Nat → List Event
  | 0 => []
  | i + 1 =>
    accepted_trace env len retries i
      ++ attempt_writes env (64 * i) (MIN 64 (len - 64 * i)) (calls_before retries i)
          (retries i)
      ++ [Event.write (64 * i) (MIN 64 (len - 64 * i)) (MIN 64 (len - 64 * i))]

/-- An environment with the gate open, a clock that advances 10 ms per reading
from 1000 up to 2000, and a transport that accepts its first write call in
full, takes 10 bytes of the second, accepts the third in full and accepts
nothing afterwards. -/
def accept_two_chunks : Env :=
  { usb_get_config := true, gdb_serial_get_dtr := true, tud_cdc_n_connected := true,
    tud_cdc_n_write := fun i _ plen =>
      if i = 0 then plen else if i = 1 then 10 else if i = 2 then plen else 0,
    platform_time_ms := fun j => 1000 + 10 * min j 100 }

/-! ## Arithmetic of ring indices -/

theorem mod_lt_two_cases {a N : Nat} (h : a < 2 * N) :
    (a < N ∧ a % N = a) ∨ (N ≤ a ∧ a % N = a - N) := by
  by_cases h1 : a < N
  · exact Or.inl ⟨h1, Nat.mod_eq_of_lt h1⟩
  · right
    refine ⟨by omega, ?_⟩
    rw [Nat.mod_eq_sub_mod (by omega)]
    exact Nat.mod_eq_of_lt (by omega)

theorem mod32_of_lt {a : Nat} (h : a < UINT32_MOD) : a % UINT32_MOD = a :=
  Nat.mod_eq_of_lt h

theorem next_index_eq {N x : Nat} (hx : x < N) (hN : N < UINT32_MOD) :
    add32 x 1 % N = (x + 1) % N := by
  unfold add32
  rw [mod32_of_lt (by omega)]

theorem next_index_lt {N x : Nat} (hx : x < N) : (x + 1) % N < N :=
  Nat.mod_lt _ (by omega)

theorem ring_dist_lt {N t h : Nat} (ht : t < N) : ring_dist N t h < N :=
  Nat.mod_lt _ (by omega)

theorem ring_dist_eq_zero_iff {N t h : Nat} (ht : t < N) (hh : h < N) :
    ring_dist N t h = 0 ↔ t = h := by
  unfold ring_dist
  have h1 := mod_lt_two_cases (a := h + N - t) (N := N) (by omega)
  omega

theorem ring_dist_pop {N t h : Nat} (ht : t < N) (hh : h < N) (hne : h ≠ t) :
    ring_dist N t h = ring_dist N ((t + 1) % N) h + 1 := by
  unfold ring_dist
  have h1 := mod_lt_two_cases (a := h + N - t) (N := N) (by omega)
  have h2 := mod_lt_two_cases (a := t + 1) (N := N) (by omega)
  have h3 := mod_lt_two_cases (a := h + N - (t + 1) % N) (N := N) (by omega)
  omega

theorem ring_dist_push {N t h : Nat} (ht : t < N) (hh : h < N) (hne : (h + 1) % N ≠ t) :
    ring_dist N t ((h + 1) % N) = ring_dist N t h + 1 := by
  unfold ring_dist
  have h1 := mod_lt_two_cases (a := h + N - t) (N := N) (by omega)
  have h2 := mod_lt_two_cases (a := h + 1) (N := N) (by omega)
  have h3 := mod_lt_two_cases (a := (h + 1) % N + N - t) (N := N) (by omega)
  omega

theorem ring_dist_full {N t h : Nat} (ht : t < N) (hh : h < N) (hfull : (h + 1) % N = t) :
    ring_dist N t h = N - 1 := by
  unfold ring_dist
  have h1 := mod_lt_two_cases (a := h + N - t) (N := N) (by omega)
  have h2 := mod_lt_two_cases (a := h + 1) (N := N) (by omega)
  omega

theorem recv_bytes_free_eq {N : Nat} {st : RecvState} (hwf : st.WF N) :
    recv_bytes_free N st = N - 1 - ring_dist N st.recv_tail st.recv_head := by
  obtain ⟨_, hh, ht, hN⟩ := hwf
  unfold recv_bytes_free ring_dist sub32 add32
  have h1 := mod_lt_two_cases (a := st.recv_head + N - st.recv_tail) (N := N) (by omega)
  unfold UINT32_MOD at *
  split <;> omega

/-! ## The queue held by the ring buffer -/

theorem ring_walk_set_push (buf : List Int) (N h : Nat) (c : Int) (hh : h < N)
    (hlen : buf.length = N) :
    ∀ (n t : Nat), t < N → ring_dist N t h = n →
      ring_walk (buf.set h c) N t (n + 1) = ring_walk buf N t n ++ [c] := by
  intro n
  induction n with
  | zero =>
    intro t ht hd
    have hth : t = h := (ring_dist_eq_zero_iff ht hh).1 hd
    subst hth
    simp [ring_walk, List.getD_eq_getElem?_getD, hlen, ht]
  | succ n ih =>
    intro t ht hd
    have hne : h ≠ t := by
      intro he
      have := (ring_dist_eq_zero_iff ht hh).2 he.symm
      omega
    have hd2 : ring_dist N ((t + 1) % N) h = n := by
      have := ring_dist_pop ht hh hne
      omega
    have ih2 := ih ((t + 1) % N) (next_index_lt ht) hd2
    rw [ring_walk, ih2]
    conv_rhs => rw [ring_walk]
    simp [List.getD_eq_getElem?_getD, List.getElem?_set_ne hne]

theorem pending_length {N : Nat} {st : RecvState} :
    ∀ (n t : Nat), (ring_walk st.recv_buf N t n).length = n := by
  intro n
  induction n with
  | zero => intro t; rfl
  | succ n ih => intro t; simp [ring_walk, ih]

theorem pending_length_eq (N : Nat) (st : RecvState) :
    (pending N st).length = ring_dist N st.recv_tail st.recv_head :=
  pending_length _ _

theorem free_add_pending {N : Nat} {st : RecvState} (hwf : st.WF N) :
    recv_bytes_free N st + (pending N st).length = N - 1 := by
  rw [recv_bytes_free_eq hwf, pending_length_eq]
  have := ring_dist_lt (N := N) (h := st.recv_head) hwf.2.2.1
  omega

theorem push_char_spec {N : Nat} {st : RecvState} (c : Int) (hwf : st.WF N)
    (hne : add32 st.recv_head 1 % N ≠ st.recv_tail) :
    (push_char N st c).WF N ∧ (push_char N st c).recv_tail = st.recv_tail ∧
      (push_char N st c).recv_head = (st.recv_head + 1) % N ∧
      pending N (push_char N st c) = pending N st ++ [c] := by
  obtain ⟨hlen, hh, ht, hN⟩ := hwf
  have hnext := next_index_eq hh hN
  rw [hnext] at hne
  refine ⟨⟨?_, ?_, ht, hN⟩, rfl, ?_, ?_⟩
  · simp [push_char, hlen]
  · simp only [push_char, hnext]; exact next_index_lt hh
  · simp only [push_char, hnext]
  · unfold pending
    simp only [push_char, hnext]
    rw [ring_dist_push ht hh hne]
    exact ring_walk_set_push st.recv_buf N st.recv_head c hh hlen _ _ ht rfl

theorem full_iff {N : Nat} {st : RecvState} (hwf : st.WF N) :
    recv_bytes_free N st = 0 ↔ add32 st.recv_head 1 % N = st.recv_tail := by
  rw [recv_bytes_free_eq hwf, next_index_eq hwf.2.1 hwf.2.2.2]
  obtain ⟨_, hh, ht, _⟩ := hwf
  unfold ring_dist
  have h1 := mod_lt_two_cases (a := st.recv_head + N - st.recv_tail) (N := N) (by omega)
  have h2 := mod_lt_two_cases (a := st.recv_head + 1) (N := N) (by omega)
  omega

theorem recv_copy_full {N : Nat} {st : RecvState} (hwf : st.WF N)
    (hfull : recv_bytes_free N st = 0) (usb_buf : List Int) :
    recv_copy N st usb_buf = st := by
  cases usb_buf with
  | nil => rfl
  | cons c rest => simp [recv_copy, (full_iff hwf).1 hfull]

theorem recv_copy_cons {N : Nat} {st : RecvState} (c : Int) (rest : List Int)
    (hne : add32 st.recv_head 1 % N ≠ st.recv_tail) :
    recv_copy N st (c :: rest) = recv_copy N (push_char N st c) rest := by
  simp [recv_copy, hne, push_char]

theorem recv_copy_spec {N : Nat} (usb_buf : List Int) :
    ∀ st : RecvState, st.WF N →
      (recv_copy N st usb_buf).WF N ∧
      (recv_copy N st usb_buf).recv_tail = st.recv_tail ∧
      (recv_copy N st usb_buf).recv_head
        = (st.recv_head + min usb_buf.length (recv_bytes_free N st)) % N ∧
      pending N (recv_copy N st usb_buf)
        = pending N st ++ usb_buf.take (recv_bytes_free N st) := by
  induction usb_buf with
  | nil =>
    intro st hwf
    refine ⟨hwf, rfl, ?_, by simp [recv_copy]⟩
    simp [recv_copy, Nat.mod_eq_of_lt hwf.2.1]
  | cons c rest ih =>
    intro st hwf
    by_cases hfull : add32 st.recv_head 1 % N = st.recv_tail
    · have hz := (full_iff hwf).2 hfull
      rw [recv_copy_full hwf hz, hz]
      refine ⟨hwf, rfl, ?_, by simp⟩
      simp [Nat.mod_eq_of_lt hwf.2.1]
    · obtain ⟨hwf1, ht1, hh1, hp1⟩ := push_char_spec c hwf hfull
      have hf0 : recv_bytes_free N st ≠ 0 := fun h => hfull ((full_iff hwf).1 h)
      have hf1 : recv_bytes_free N (push_char N st c) + 1 = recv_bytes_free N st := by
        have a := free_add_pending hwf
        have b := free_add_pending hwf1
        rw [hp1] at b
        simp only [List.length_append, List.length_singleton] at b
        omega
      obtain ⟨hwf2, ht2, hh2, hp2⟩ := ih (push_char N st c) hwf1
      rw [recv_copy_cons c rest hfull]
      refine ⟨hwf2, ht2.trans ht1, ?_, ?_⟩
      · rw [hh2, hh1, Nat.mod_add_mod, ← hf1]
        congr 1
        simp only [List.length_cons]
        omega
      · rw [hp2, hp1, ← hf1, List.take_succ_cons]
        simp

theorem skip_rejects_batch (N : Nat) (st : RecvState) (usb_buf : List Int)
    (hk : recv_bytes_free N st < usb_buf.length) :
    rtt_serial_receive_callback N true usb_buf st = st := by
  simp [rtt_serial_receive_callback, hk]

theorem callback_fits {N : Nat} {st : RecvState} (skip : Bool) (usb_buf : List Int)
    (hfit : usb_buf.length ≤ recv_bytes_free N st) :
    rtt_serial_receive_callback N skip usb_buf st = recv_copy N st usb_buf := by
  unfold rtt_serial_receive_callback
  have : ¬ usb_buf.length > recv_bytes_free N st := by omega
  simp [this]

theorem pending_nil_iff {N : Nat} {st : RecvState} (hwf : st.WF N) :
    pending N st = [] ↔ st.recv_head = st.recv_tail := by
  rw [← List.length_eq_zero, pending_length_eq, ring_dist_eq_zero_iff hwf.2.2.1 hwf.2.1]
  exact eq_comm

theorem getchar_spec {N : Nat} {st : RecvState} (channel : Nat) (hwf : st.WF N)
    (hne : st.recv_head ≠ st.recv_tail) :
    (rtt_getchar N channel st).1 = to_uint8 (st.recv_buf.getD st.recv_tail 0) ∧
      (rtt_getchar N channel st).2.WF N ∧
      (rtt_getchar N channel st).2.recv_head = st.recv_head ∧
      (rtt_getchar N channel st).2.recv_buf = st.recv_buf ∧
      (rtt_getchar N channel st).2.recv_tail = (st.recv_tail + 1) % N ∧
      pending N st
        = st.recv_buf.getD st.recv_tail 0 :: pending N (rtt_getchar N channel st).2 := by
  obtain ⟨hlen, hh, ht, hN⟩ := hwf
  have hnext := next_index_eq ht hN
  have hg : rtt_getchar N channel st
      = (to_uint8 (st.recv_buf.getD st.recv_tail 0),
          { st with recv_tail := (st.recv_tail + 1) % N }) := by
    simp [rtt_getchar, hne, hnext]
  rw [hg]
  refine ⟨rfl, ⟨hlen, hh, next_index_lt ht, hN⟩, rfl, rfl, rfl, ?_⟩
  unfold pending
  rw [ring_dist_pop ht hh hne, ring_walk]

theorem getchar_many_spec {N : Nat} (channel : Nat) (l : List Int) :
    ∀ (st : RecvState) (r : List Int), st.WF N → pending N st = l ++ r →
      (getchar_many N channel l.length st).1 = l.map to_uint8 ∧
      (getchar_many N channel l.length st).2.WF N ∧
      (getchar_many N channel l.length st).2.recv_head = st.recv_head ∧
      pending N (getchar_many N channel l.length st).2 = r := by
  induction l with
  | nil =>
    intro st r hwf hp
    exact ⟨rfl, hwf, rfl, by simpa using hp⟩
  | cons c rest ih =>
    intro st r hwf hp
    have hne : st.recv_head ≠ st.recv_tail := by
      intro he
      rw [(pending_nil_iff hwf).2 he] at hp
      simp at hp
    obtain ⟨hv, hwf1, hh1, _, _, hp1⟩ := getchar_spec channel hwf hne
    rw [hp1] at hp
    simp only [List.cons_append, List.cons.injEq] at hp
    obtain ⟨a, b, c1, d⟩ := ih (rtt_getchar N channel st).2 r hwf1 hp.2
    simp only [List.length_cons, getchar_many, List.map_cons]
    refine ⟨?_, b, c1.trans hh1, d⟩
    rw [a, hv, hp.1]

theorem deliver_spec {N : Nat} (calls : List (Bool × List Int)) :
    ∀ st : RecvState, st.WF N → (batch_bytes calls).length ≤ recv_bytes_free N st →
      (deliver N calls st).WF N ∧ (deliver N calls st).recv_tail = st.recv_tail ∧
      pending N (deliver N calls st) = pending N st ++ batch_bytes calls := by
  induction calls with
  | nil =>
    intro st hwf _
    exact ⟨hwf, rfl, by simp [deliver, batch_bytes]⟩
  | cons c rest ih =>
    intro st hwf hfit
    obtain ⟨skip, usb_buf⟩ := c
    simp only [batch_bytes, List.length_append] at hfit
    have hcb := @callback_fits N st skip usb_buf (by omega)
    obtain ⟨hwf1, ht1, _, hp1⟩ := recv_copy_spec (N := N) usb_buf st hwf
    rw [List.take_of_length_le (by omega)] at hp1
    have hfree : recv_bytes_free N (recv_copy N st usb_buf) + usb_buf.length
        = recv_bytes_free N st := by
      have a := free_add_pending hwf
      have b := free_add_pending hwf1
      rw [hp1, List.length_append] at b
      omega
    obtain ⟨hwf2, ht2, hp2⟩ := ih (recv_copy N st usb_buf) hwf1 (by omega)
    simp only [deliver, hcb, batch_bytes]
    exact ⟨hwf2, ht2.trans ht1, by rw [hp2, hp1, List.append_assoc]⟩

theorem to_uint8_char_of_byte (isSigned : Bool) {b : Nat} (hb : b < 256) :
    to_uint8 (char_of_byte isSigned b) = (b : Int) := by
  unfold to_uint8 char_of_byte
  split <;> omega

theorem batch_bytes_map {α β γ : Type} (f : α → γ) (calls : List (β × List α)) :
    batch_bytes (calls.map fun c => (c.1, c.2.map f)) = (batch_bytes calls).map f := by
  induction calls with
  | nil => rfl
  | cons c rest ih => simp [batch_bytes, ih]

/-! ## Claims about the receive ring buffer -/

/-- C1: FIFO round trip. From an empty buffer, bytes delivered through any
number of callback invocations (each at most 64 bytes, any value of the skip
flag, at most `N - 1` bytes in total) are returned by as many `rtt_getchar(0)`
calls in the original order, each as its unsigned value, and `rtt_nodata(0)` is
true afterwards; this holds whether `char` is signed or unsigned. -/
theorem fifo_round_trip (N : Nat) (st : RecvState) (isSigned : Bool)
    (calls : List (Bool × List Nat))
    (_hN : 2 ≤ N) (hwf : st.WF N) (hempty : st.recv_head = st.recv_tail)
    (_hchunk : ∀ c ∈ calls, c.2.length ≤ 64)
    (hbyte : ∀ b ∈ batch_bytes calls, b < 256)
    (hm : (batch_bytes calls).length ≤ N - 1) :
    (getchar_many N 0 (batch_bytes calls).length
        (deliver N (calls.map fun c => (c.1, c.2.map (char_of_byte isSigned))) st)).1
      = (batch_bytes calls).map Int.ofNat ∧
    rtt_nodata 0
      (getchar_many N 0 (batch_bytes calls).length
        (deliver N (calls.map fun c => (c.1, c.2.map (char_of_byte isSigned))) st)).2
      = true := by
  have hp0 := (pending_nil_iff hwf).2 hempty
  have hfree : recv_bytes_free N st = N - 1 := by
    have := free_add_pending hwf
    rw [hp0] at this
    simpa using this
  obtain ⟨hwf1, ht1, hp1⟩ :=
    deliver_spec (N := N) (calls.map fun c => (c.1, c.2.map (char_of_byte isSigned))) st hwf
      (by rw [batch_bytes_map, List.length_map, hfree]; exact hm)
  rw [hp0, List.nil_append, batch_bytes_map] at hp1
  obtain ⟨hv, hwf2, _, hp2⟩ :=
    getchar_many_spec (N := N) 0 ((batch_bytes calls).map (char_of_byte isSigned)) _ []
      hwf1 (by rw [hp1, List.append_nil])
  rw [List.length_map] at hv hwf2 hp2
  refine ⟨?_, ?_⟩
  · rw [hv, List.map_map]
    apply List.map_congr_left
    intro b hb
    exact to_uint8_char_of_byte isSigned (hbyte b hb)
  · have := (pending_nil_iff hwf2).1 hp2
    simp [rtt_nodata, this]

/-- Witness for C1: capacity 8, "ABC" under drop-tail then four more bytes
(one of them 0xC8) under drop-whole-chunk, with a signed `char`. -/
theorem fifo_round_trip_witness :
    (getchar_many 8 0 7
        (deliver 8 [(false, [65, 66, 67]), (true, [-56, 69, 70, 71])] (recv_init 8))).1
      = [65, 66, 67, 200, 69, 70, 71] ∧
    rtt_nodata 0
      (getchar_many 8 0 7
        (deliver 8 [(false, [65, 66, 67]), (true, [-56, 69, 70, 71])] (recv_init 8))).2
      = true :=
  fifo_round_trip 8 (recv_init 8) true [(false, [65, 66, 67]), (true, [200, 69, 70, 71])]
    (by decide) (by simp [RecvState.WF, recv_init, UINT32_MOD]) rfl
    (by decide) (by decide) (by decide)

/-- C2: drop-tail-bytes policy with too little room. With `rtt_flag_skip` false
and `f = recv_bytes_free()` smaller than the number `k <= 64` of bytes read, one
callback keeps `recv_tail`, advances `recv_head` by `f` modulo `N`, queues
exactly the first `f` bytes of the batch behind the bytes already queued
(reading the buffer out with `rtt_getchar(0)` gives the old queue followed by
those `f` bytes), leaves the buffer full, and with `f = 0` changes nothing. -/
theorem drop_tail_accepts_prefix (N : Nat) (st : RecvState) (usb_buf : List Int)
    (hwf : st.WF N) (hk : recv_bytes_free N st < usb_buf.length)
    (_h64 : usb_buf.length ≤ 64) :
    (rtt_serial_receive_callback N false usb_buf st).recv_tail = st.recv_tail ∧
    (rtt_serial_receive_callback N false usb_buf st).recv_head
      = (st.recv_head + recv_bytes_free N st) % N ∧
    pending N (rtt_serial_receive_callback N false usb_buf st)
      = pending N st ++ usb_buf.take (recv_bytes_free N st) ∧
    (getchar_many N 0 (N - 1) (rtt_serial_receive_callback N false usb_buf st)).1
      = (pending N st ++ usb_buf.take (recv_bytes_free N st)).map to_uint8 ∧
    recv_bytes_free N (rtt_serial_receive_callback N false usb_buf st) = 0 ∧
    add32 (rtt_serial_receive_callback N false usb_buf st).recv_head 1 % N
      = (rtt_serial_receive_callback N false usb_buf st).recv_tail ∧
    (recv_bytes_free N st = 0 → rtt_serial_receive_callback N false usb_buf st = st) := by
  have hcb : rtt_serial_receive_callback N false usb_buf st = recv_copy N st usb_buf := by
    simp [rtt_serial_receive_callback]
  rw [hcb]
  obtain ⟨hwf1, ht1, hh1, hp1⟩ := recv_copy_spec (N := N) usb_buf st hwf
  have hlen : (pending N (recv_copy N st usb_buf)).length = N - 1 := by
    rw [hp1, List.length_append, List.length_take, Nat.min_eq_left (by omega)]
    have := free_add_pending hwf
    omega
  have hfree : recv_bytes_free N (recv_copy N st usb_buf) = 0 := by
    have := free_add_pending hwf1
    omega
  refine ⟨ht1, ?_, hp1, ?_, hfree, (full_iff hwf1).1 hfree, ?_⟩
  · rw [hh1, Nat.min_eq_right (by omega)]
  · have := getchar_many_spec (N := N) 0 (pending N (recv_copy N st usb_buf))
      (recv_copy N st usb_buf) [] hwf1 (by simp)
    rw [hlen, hp1] at this
    exact this.1
  · intro hz
    exact recv_copy_full hwf hz usb_buf

/-- Witness for C2: the scenario of capacity 8 holding "ABCDE" (two free
slots) and a batch "XYZ". -/
theorem drop_tail_accepts_prefix_witness :
    recv_bytes_free 8 (recv_run 8 [.receive false [65, 66, 67, 68, 69]]) = 2 ∧
    (getchar_many 8 0 7 (rtt_serial_receive_callback 8 false [88, 89, 90]
        (recv_run 8 [.receive false [65, 66, 67, 68, 69]]))).1
      = [65, 66, 67, 68, 69, 88, 89] ∧
    recv_bytes_free 8 (rtt_serial_receive_callback 8 false [88, 89, 90]
        (recv_run 8 [.receive false [65, 66, 67, 68, 69]])) = 0 := by
  have h := drop_tail_accepts_prefix 8 (recv_run 8 [.receive false [65, 66, 67, 68, 69]])
    [88, 89, 90] (by simp [RecvState.WF, recv_run, UINT32_MOD]; decide) (by decide) (by decide)
  exact ⟨by decide, by decide, h.2.2.2.2.1⟩

/-- C3: drop-whole-chunk policy with too little room. With `rtt_flag_skip` true
and more bytes read than `recv_bytes_free()`, the callback accepts nothing:
`recv_head`, `recv_tail` and every slot of `recv_buf` are as before. -/
theorem drop_whole_chunk_rejects (N : Nat) (st : RecvState) (usb_buf : List Int)
    (hk : recv_bytes_free N st < usb_buf.length) :
    rtt_serial_receive_callback N true usb_buf st = st := by
  simp [rtt_serial_receive_callback, hk]

/-- Witness for C3: capacity 8 holding "ABCDE" and a batch of three bytes. -/
theorem drop_whole_chunk_rejects_witness :
    recv_bytes_free 8 (recv_run 8 [.receive false [65, 66, 67, 68, 69]]) < 3 ∧
    rtt_serial_receive_callback 8 true [88, 89, 90]
        (recv_run 8 [.receive false [65, 66, 67, 68, 69]])
      = recv_run 8 [.receive false [65, 66, 67, 68, 69]] :=
  ⟨by decide, drop_whole_chunk_rejects 8 _ [88, 89, 90] (by decide)⟩

/-- C4 (the code at the failing input): with one byte 'A' queued,
`rtt_getchar(1)` returns 65 rather than -1 and advances `recv_tail`, although
`rtt_nodata(1)` reports that channel 1 has no data. -/
theorem getchar_other_channel_pops :
    rtt_nodata 1 (recv_run 8 [.receive false [65]]) = true ∧
    (rtt_getchar 8 1 (recv_run 8 [.receive false [65]])).1 = 65 ∧
    (recv_run 8 [.receive false [65]]).recv_tail = 0 ∧
    (rtt_getchar 8 1 (recv_run 8 [.receive false [65]])).2.recv_tail = 1 := by
  decide

theorem to_uint8_ne_neg_one (c : Int) : to_uint8 c ≠ -1 := by
  unfold to_uint8
  omega

theorem getchar_empty {N : Nat} {st : RecvState} (channel : Nat)
    (hempty : st.recv_head = st.recv_tail) : rtt_getchar N channel st = (-1, st) := by
  simp [rtt_getchar, hempty]

theorem available_eq {N : Nat} :
    ∀ (fuel : Nat) (st : RecvState), st.WF N →
      available N fuel st = min fuel (pending N st).length := by
  intro fuel
  induction fuel with
  | zero => intro st _; simp [available]
  | succ fuel ih =>
    intro st hwf
    by_cases he : st.recv_head = st.recv_tail
    · simp [available, getchar_empty 0 he, (pending_nil_iff hwf).2 he]
    · obtain ⟨hv, hwf1, _, _, _, hp⟩ := getchar_spec 0 hwf he
      have hne : (rtt_getchar N 0 st).1 ≠ -1 := by
        rw [hv]
        exact to_uint8_ne_neg_one _
      simp only [available, hne, if_false, ih _ hwf1, hp, List.length_cons]
      omega

theorem recv_init_wf {N : Nat} (h1 : 1 ≤ N) (h2 : N < UINT32_MOD) : (recv_init N).WF N :=
  ⟨by simp [recv_init], h1, h1, h2⟩

theorem callback_wf {N : Nat} {st : RecvState} (skip : Bool) (usb_buf : List Int)
    (hwf : st.WF N) : (rtt_serial_receive_callback N skip usb_buf st).WF N := by
  by_cases hc : (skip && decide (usb_buf.length > recv_bytes_free N st)) = true
  · simp only [rtt_serial_receive_callback, hc, if_true]
    exact hwf
  · simp only [rtt_serial_receive_callback, hc, if_false]
    exact (recv_copy_spec usb_buf st hwf).1

theorem getchar_wf {N : Nat} {st : RecvState} (channel : Nat) (hwf : st.WF N) :
    (rtt_getchar N channel st).2.WF N := by
  by_cases he : st.recv_head = st.recv_tail
  · rw [getchar_empty channel he]
    exact hwf
  · exact (getchar_spec channel hwf he).2.1

theorem foldl_apply_wf {N : Nat} (ops : List RecvOp) :
    ∀ st : RecvState, st.WF N → (ops.foldl (RecvOp.apply N) st).WF N := by
  induction ops with
  | nil => intro st hwf; exact hwf
  | cons op rest ih =>
    intro st hwf
    apply ih
    cases op with
    | receive skip usb_buf => exact callback_wf skip usb_buf hwf
    | getchar channel => exact getchar_wf channel hwf

theorem recv_run_wf {N : Nat} (h1 : 1 ≤ N) (h2 : N < UINT32_MOD) (ops : List RecvOp) :
    (recv_run N ops).WF N :=
  foldl_apply_wf ops _ (recv_init_wf h1 h2)

theorem callback_head_eq_tail {N : Nat} {st : RecvState} (skip : Bool) (usb_buf : List Int)
    (hwf : st.WF N)
    (he : (rtt_serial_receive_callback N skip usb_buf st).recv_head
      = (rtt_serial_receive_callback N skip usb_buf st).recv_tail) :
    rtt_serial_receive_callback N skip usb_buf st = st := by
  by_cases hc : (skip && decide (usb_buf.length > recv_bytes_free N st)) = true
  · simp only [rtt_serial_receive_callback, hc, if_true]
  · simp only [rtt_serial_receive_callback, hc, if_false] at he ⊢
    obtain ⟨hwf1, _, _, hp1⟩ := recv_copy_spec (N := N) usb_buf st hwf
    have hnil := (pending_nil_iff hwf1).2 he
    rw [hp1, List.append_eq_nil] at hnil
    have htake := congrArg List.length hnil.2
    rw [List.length_take] at htake
    simp only [List.length_nil] at htake
    by_cases hz : recv_bytes_free N st = 0
    · exact recv_copy_full hwf hz usb_buf
    · have : usb_buf = [] := List.length_eq_zero.1 (by omega)
      subst this
      rfl

/-- C9: the queue never holds more than `N - 1` bytes. After any sequence of
callback invocations (any flag, up to 64 bytes each) and `rtt_getchar` calls
from program start, the number of consecutive `rtt_getchar(0)` calls that
return a byte is `(recv_head - recv_tail) mod N` and at most `N - 1`, however
far one looks ahead; and a further callback never moves `recv_head` onto
`recv_tail`: if the indices are equal afterwards, the callback stored nothing. -/
theorem available_le_capacity (N : Nat) (ops : List RecvOp)
    (h1 : 1 ≤ N) (h2 : N < UINT32_MOD)
    (_h64 : ∀ skip usb_buf, RecvOp.receive skip usb_buf ∈ ops → usb_buf.length ≤ 64) :
    (∀ fuel, available N fuel (recv_run N ops) ≤ N - 1) ∧
    available N N (recv_run N ops)
      = ((recv_run N ops).recv_head + N - (recv_run N ops).recv_tail) % N ∧
    (∀ skip usb_buf,
      (rtt_serial_receive_callback N skip usb_buf (recv_run N ops)).recv_head
        = (rtt_serial_receive_callback N skip usb_buf (recv_run N ops)).recv_tail →
      rtt_serial_receive_callback N skip usb_buf (recv_run N ops) = recv_run N ops) := by
  have hwf := recv_run_wf h1 h2 ops
  have hlt := ring_dist_lt (N := N) (h := (recv_run N ops).recv_head) hwf.2.2.1
  refine ⟨?_, ?_, ?_⟩
  · intro fuel
    rw [available_eq fuel _ hwf, pending_length_eq]
    omega
  · rw [available_eq N _ hwf, pending_length_eq]
    unfold ring_dist at hlt ⊢
    omega
  · intro skip usb_buf he
    exact callback_head_eq_tail skip usb_buf hwf he

/-- Witness for C9: capacity 4, ten bytes pushed in two calls around one read. -/
theorem available_le_capacity_witness :
    available 4 100
      (recv_run 4 [.receive false [1, 2, 3, 4, 5], .getchar 0, .receive false [6, 7, 8, 9, 10]])
      ≤ 4 - 1 :=
  (available_le_capacity 4
    [.receive false [1, 2, 3, 4, 5], .getchar 0, .receive false [6, 7, 8, 9, 10]]
    (by decide) (by decide) (by
      intro skip usb_buf h
      simp at h
      rcases h with ⟨_, rfl⟩ | ⟨_, rfl⟩ <;> decide)).1 100

/-- C10: reading an empty buffer. With `recv_head == recv_tail`,
`rtt_getchar(0)` returns -1 and leaves the state as it was, so any number of
repeated calls return -1 each and end in the same state. -/
theorem getchar_empty_idempotent (N : Nat) (st : RecvState)
    (hempty : st.recv_head = st.recv_tail) :
    rtt_getchar N 0 st = (-1, st) ∧
    ∀ n, getchar_many N 0 n st = (List.replicate n (-1), st) := by
  refine ⟨getchar_empty 0 hempty, ?_⟩
  intro n
  induction n with
  | zero => rfl
  | succ n ih => simp [getchar_many, getchar_empty 0 hempty, ih, List.replicate_succ]

/-- Witness for C10: a buffer of capacity 8 whose indices both stand at 3. -/
theorem getchar_empty_idempotent_witness :
    rtt_getchar 8 0 { recv_buf := [1, 2, 3, 4, 5, 6, 7, 8], recv_head := 3, recv_tail := 3 }
      = (-1, { recv_buf := [1, 2, 3, 4, 5, 6, 7, 8], recv_head := 3, recv_tail := 3 }) :=
  (getchar_empty_idempotent 8
    { recv_buf := [1, 2, 3, 4, 5, 6, 7, 8], recv_head := 3, recv_tail := 3 } rfl).1

/-! ## The loops of `rtt_write` -/

theorem run_add (env : Env) (len : Nat) :
    ∀ (a b : Nat) (c : Config),
      rtt_write_run env len (a + b) c = rtt_write_run env len b (rtt_write_run env len a c) := by
  intro a
  induction a with
  | zero => intro b c; simp [rtt_write_run]
  | succ a ih =>
    intro b c
    rw [Nat.add_right_comm, rtt_write_run, ih]
    rfl

theorem run_one (env : Env) (len : Nat) (c : Config) :
    rtt_write_run env len 1 c = rtt_write_step env len c := rfl

theorem run_done (env : Env) (len ret : Nat) (io : IoLog) :
    ∀ n, rtt_write_run env len n (.done ret io) = .done ret io := by
  intro n
  induction n with
  | zero => rfl
  | succ n ih => rw [rtt_write_run]; exact ih

theorem MIN_le_left (a b : Nat) : MIN a b ≤ a := by
  unfold MIN
  split <;> omega

theorem MIN_pos {a b : Nat} (ha : 0 < a) (hb : 0 < b) : 0 < MIN a b := by
  unfold MIN
  split <;> omega

theorem sub32_of_le {a b : Nat} (h : b ≤ a) (ha : a < UINT32_MOD) : sub32 a b = a - b := by
  unfold sub32
  rw [show a + UINT32_MOD - b = a - b + UINT32_MOD by omega, Nat.add_mod_right]
  exact Nat.mod_eq_of_lt (by omega)

theorem step_enter {env : Env} {len p : Nat} {io : IoLog} (h : p < len) :
    rtt_write_step env len (.loop_head p io)
      = .attempt p (MIN 64 (sub32 len p)) (clock_reading env io.readings)
          { io with readings := io.readings + 1 } := by
  simp [rtt_write_step, h]

theorem step_exit {env : Env} {len p : Nat} {io : IoLog} (h : ¬ p < len) :
    rtt_write_step env len (.loop_head p io)
      = .done len { io with trace := io.trace ++ [Event.flush] } := by
  simp [rtt_write_step, h]

theorem step_accept {env : Env} {len p plen start_ms : Nat} {io : IoLog}
    (h : env.tud_cdc_n_write io.writes p plen % UINT32_MOD = plen) :
    rtt_write_step env len (.attempt p plen start_ms io)
      = .loop_head (add32 p 64)
          { io with writes := io.writes + 1,
                    trace := io.trace ++ [Event.write p plen plen] } := by
  simp [rtt_write_step, h]

theorem step_retry {env : Env} {len p plen start_ms : Nat} {io : IoLog}
    (h : env.tud_cdc_n_write io.writes p plen % UINT32_MOD ≠ plen)
    (ht : sub32 (clock_reading env io.readings) start_ms < 25) :
    rtt_write_step env len (.attempt p plen start_ms io)
      = .attempt p plen start_ms
          { writes := io.writes + 1, readings := io.readings + 1,
            trace := io.trace
              ++ [Event.write p plen (env.tud_cdc_n_write io.writes p plen % UINT32_MOD)] } := by
  have ht2 : ¬ sub32 (clock_reading env io.readings) start_ms ≥ 25 := by omega
  simp [rtt_write_step, h, ht2]

theorem step_abort {env : Env} {len p plen start_ms : Nat} {io : IoLog}
    (h : env.tud_cdc_n_write io.writes p plen % UINT32_MOD ≠ plen)
    (ht : 25 ≤ sub32 (clock_reading env io.readings) start_ms) :
    rtt_write_step env len (.attempt p plen start_ms io)
      = .done 0
          { writes := io.writes + 1, readings := io.readings + 1,
            trace := io.trace
              ++ [Event.write p plen (env.tud_cdc_n_write io.writes p plen % UINT32_MOD)] } := by
  simp [rtt_write_step, h, ht]

theorem full_writes_snoc (len : Nat) :
    ∀ (k i : Nat), full_writes len i (k + 1)
      = full_writes len i k
        ++ [Event.write (64 * (i + k)) (MIN 64 (len - 64 * (i + k)))
              (MIN 64 (len - 64 * (i + k)))] := by
  intro k
  induction k with
  | zero => intro i; simp [full_writes]
  | succ k ih =>
    intro i
    rw [full_writes, ih (i + 1)]
    conv_rhs => rw [full_writes]
    simp [Nat.add_assoc, Nat.add_comm 1 k]

theorem full_writes_length (len : Nat) :
    ∀ (k i : Nat), (full_writes len i k).length = k := by
  intro k
  induction k with
  | zero => intro i; rfl
  | succ k ih => intro i; simp [full_writes, ih]

theorem full_writes_mem (len : Nat) :
    ∀ (k i : Nat) (e : Event), e ∈ full_writes len i k →
      ∃ p plen, e = Event.write p plen plen ∧ plen ≤ 64 := by
  intro k
  induction k with
  | zero => intro i e he; simp [full_writes] at he
  | succ k ih =>
    intro i e he
    simp only [full_writes, List.mem_cons] at he
    rcases he with he | he
    · exact ⟨_, _, he, MIN_le_left _ _⟩
    · exact ih _ e he

theorem run_full_chunks (env : Env) (len : Nat)
    (hacc : ∀ i p plen, env.tud_cdc_n_write i p plen = plen)
    (hlen : len + 64 ≤ UINT32_MOD) :
    ∀ i : Nat, 64 * i < len + 64 →
      rtt_write_run env len (2 * i) (.loop_head 0 { writes := 0, readings := 0, trace := [] })
        = .loop_head (64 * i) { writes := i, readings := i, trace := full_writes len 0 i } := by
  intro i
  induction i with
  | zero => intro _; rfl
  | succ i ih =>
    intro hi
    have hlt : 64 * i < len := by omega
    rw [show 2 * (i + 1) = 2 * i + 2 by ring, run_add, ih (by omega)]
    have hs : sub32 len (64 * i) = len - 64 * i := sub32_of_le (by omega) (by omega)
    have hm : MIN 64 (len - 64 * i) % UINT32_MOD = MIN 64 (len - 64 * i) :=
      mod32_of_lt (by have := MIN_le_left 64 (len - 64 * i); unfold UINT32_MOD; omega)
    have hp : add32 (64 * i) 64 = 64 * (i + 1) := by
      unfold add32
      rw [mod32_of_lt (by omega)]
      ring
    simp only [rtt_write_run]
    rw [step_enter hlt, hs, step_accept (by rw [hacc]; exact hm), hp, full_writes_snoc]
    simp

theorem run_timeout (env : Env) (len p plen start_ms : Nat) :
    ∀ (d : Nat) (io : IoLog),
      (∀ i, i ≤ d → env.tud_cdc_n_write (io.writes + i) p plen % UINT32_MOD ≠ plen) →
      (∀ i, i < d → sub32 (clock_reading env (io.readings + i)) start_ms < 25) →
      25 ≤ sub32 (clock_reading env (io.readings + d)) start_ms →
      rtt_write_run env len (d + 1) (.attempt p plen start_ms io)
        = .done 0
            { writes := io.writes + (d + 1), readings := io.readings + (d + 1),
              trace := io.trace ++ attempt_writes env p plen io.writes (d + 1) } := by
  intro d
  induction d with
  | zero =>
    intro io hrej _ hdead
    simp only [rtt_write_run]
    rw [step_abort (by simpa using hrej 0 (Nat.le_refl 0)) (by simpa using hdead)]
    rfl
  | succ d ih =>
    intro io hrej hearly hdead
    rw [rtt_write_run, step_retry (by simpa using hrej 0 (Nat.zero_le _))
      (by simpa using hearly 0 (Nat.succ_pos d))]
    rw [ih]
    · simp [attempt_writes, Nat.add_assoc, Nat.add_comm 1]
    · intro i hi
      have := hrej (i + 1) (by omega)
      simpa [Nat.add_assoc, Nat.add_comm 1 i] using this
    · intro i hi
      have := hearly (i + 1) (by omega)
      simpa [Nat.add_assoc, Nat.add_comm 1 i] using this
    · simpa [Nat.add_assoc, Nat.add_comm 1 d] using hdead

theorem attempt_writes_rejected (env : Env) (p plen : Nat)
    (hrej : ∀ i p plen, env.tud_cdc_n_write i p plen = 0) :
    ∀ (n w : Nat), attempt_writes env p plen w n = List.replicate n (Event.write p plen 0) := by
  intro n
  induction n with
  | zero => intro w; rfl
  | succ n ih =>
    intro w
    rw [attempt_writes, ih, hrej, List.replicate_succ]
    rfl

theorem attempt_writes_no_flush (env : Env) (p plen : Nat) :
    ∀ (n w : Nat), Event.flush ∉ attempt_writes env p plen w n := by
  intro n
  induction n with
  | zero => intro w; simp [attempt_writes]
  | succ n ih =>
    intro w
    simp only [attempt_writes, List.mem_cons, not_or]
    exact ⟨by simp, ih _⟩

theorem entry_gate_open {env : Env} {len : Nat} (hlen : len ≠ 0)
    (hcfg : env.usb_get_config = true) (hdtr : env.gdb_serial_get_dtr = true)
    (hcon : env.tud_cdc_n_connected = true) :
    rtt_write_entry env 0 len = .loop_head 0 { writes := 0, readings := 0, trace := [] } := by
  simp [rtt_write_entry, hlen, hcfg, hdtr, hcon]

theorem chunks_sent_append {len p : Nat} {trace : List Event} (e : Event)
    (h : chunks_sent len trace p) : chunks_sent len (trace ++ [e]) p := by
  intro i hi
  exact List.mem_append_left _ (h i hi)

theorem step_inv (env : Env) {len : Nat} (hlen : len < UINT32_MOD) :
    ∀ c : Config, c.Inv len → (rtt_write_step env len c).Inv len := by
  intro c hc
  cases c with
  | loop_head p io =>
    obtain ⟨hp, _, hf, hs⟩ := hc
    by_cases h : p < len
    · rw [step_enter h]
      exact ⟨hp, h, by rw [sub32_of_le (by omega) hlen], hf, hs⟩
    · rw [step_exit h]
      trivial
  | attempt p plen start_ms io =>
    obtain ⟨hp, hpl, hplen, hf, hs⟩ := hc
    by_cases hr : env.tud_cdc_n_write io.writes p plen % UINT32_MOD = plen
    · rw [step_accept hr]
      refine ⟨?_, ?_, ?_, ?_⟩
      · unfold add32 UINT32_MOD; omega
      · unfold add32; exact Nat.mod_lt _ (by unfold UINT32_MOD; omega)
      · simp [hf]
      · intro i hi
        unfold add32 UINT32_MOD at hi
        unfold UINT32_MOD at hlen
        by_cases hlo : 64 * i < p
        · exact List.mem_append_left _ (hs i hlo)
        · have hpi : 64 * i = p := by omega
          rw [hpi, ← hplen]
          simp
    · by_cases ht : 25 ≤ sub32 (clock_reading env io.readings) start_ms
      · rw [step_abort hr ht]
        trivial
      · rw [step_retry hr (by omega)]
        exact ⟨hp, hpl, hplen, by simp [hf], chunks_sent_append _ hs⟩
  | done ret io => trivial

theorem run_inv (env : Env) {len : Nat} (hlen : len < UINT32_MOD) :
    ∀ (n : Nat) (c : Config), c.Inv len → (rtt_write_run env len n c).Inv len := by
  intro n
  induction n with
  | zero => intro c hc; exact hc
  | succ n ih => intro c hc; exact ih _ (step_inv env hlen c hc)

theorem entry_inv (env : Env) (channel len : Nat) : (rtt_write_entry env channel len).Inv len := by
  unfold rtt_write_entry
  split
  · trivial
  · split
    · exact ⟨rfl, by decide, by simp, fun i hi => by omega⟩
    · trivial

/-! ## Claims about `rtt_write` -/

/-- C5 as stated fails for an empty payload: with the gate open and a transport
that accepts everything, `rtt_write(0, buf, 0)` never returns having flushed. -/
theorem write_empty_payload_no_flush :
    ¬ ∃ fuel io, rtt_write accept_all 0 0 fuel = some (0, io) ∧ Event.flush ∈ io.trace := by
  rintro ⟨fuel, io, h, hf⟩
  have he : rtt_write_entry accept_all 0 0
      = .done 0 { writes := 0, readings := 0, trace := [] } := rfl
  simp only [rtt_write, he, run_done, Option.some.injEq, Prod.mk.injEq] at h
  rw [← h.2] at hf
  simp at hf

/-- C5 (amended): with the gate open and a transport that accepts every chunk
in full, `rtt_write(0, buf, len)` returns `len` for every `len <= 2^32 - 64`;
the transport sees exactly `ceil(len/64)` write calls, chunk after chunk and
each of at most 64 bytes, and then, when `len > 0`, exactly one flush; when
`len = 0` it sees no call at all. -/
theorem write_accepting_transport (env : Env) (len : Nat)
    (hlen : len + 64 ≤ UINT32_MOD)
    (hcfg : env.usb_get_config = true) (hdtr : env.gdb_serial_get_dtr = true)
    (hcon : env.tud_cdc_n_connected = true)
    (hacc : ∀ i p plen, env.tud_cdc_n_write i p plen = plen) :
    (∃ fuel, rtt_write env 0 len fuel
      = some (len,
          { writes := chunk_count len, readings := chunk_count len,
            trace := full_writes len 0 (chunk_count len)
              ++ (if len = 0 then [] else [Event.flush]) })) ∧
    (full_writes len 0 (chunk_count len)).length = chunk_count len ∧
    ∀ e ∈ full_writes len 0 (chunk_count len),
      ∃ p plen, e = Event.write p plen plen ∧ plen ≤ 64 := by
  refine ⟨?_, full_writes_length len _ _, full_writes_mem len _ _⟩
  by_cases h0 : len = 0
  · subst h0
    exact ⟨0, rfl⟩
  · refine ⟨2 * chunk_count len + 1, ?_⟩
    have hcc1 : 64 * chunk_count len < len + 64 := by unfold chunk_count; omega
    have hcc2 : ¬ 64 * chunk_count len < len := by unfold chunk_count; omega
    unfold rtt_write
    rw [entry_gate_open h0 hcfg hdtr hcon, run_add, run_full_chunks env len hacc hlen _ hcc1]
    simp only [rtt_write_run]
    rw [step_exit hcc2]
    simp [h0]

/-- Witness for C5 (amended): a payload of 130 bytes goes out as chunks of 64,
64 and 2 bytes followed by one flush. -/
theorem write_accepting_transport_witness :
    ∃ fuel, rtt_write accept_all 0 130 fuel
      = some (130,
          { writes := 3, readings := 3,
            trace := [Event.write 0 64 64, Event.write 64 64 64, Event.write 128 2 2,
              Event.flush] }) :=
  (write_accepting_transport accept_all 130 (by decide) rfl rfl rfl
    (fun _ _ _ => rfl)).1

/-- C8: unsupported channel or closed gate. If `channel != 0`, or one of
`usb_get_config()`, `gdb_serial_get_dtr()`, `tud_cdc_n_connected()` is false,
`rtt_write` returns exactly `len` having called neither `tud_cdc_n_write` nor
`tud_cdc_n_write_flush` (nor the clock). -/
theorem write_gate_closed (env : Env) (channel len : Nat)
    (h : channel ≠ 0 ∨ env.usb_get_config = false ∨ env.gdb_serial_get_dtr = false
      ∨ env.tud_cdc_n_connected = false) :
    ∀ fuel, rtt_write env channel len fuel
      = some (len, { writes := 0, readings := 0, trace := [] }) := by
  intro fuel
  have he : rtt_write_entry env channel len
      = .done len { writes := 0, readings := 0, trace := [] } := by
    unfold rtt_write_entry
    rcases h with h | h | h | h <;> simp [h]
  simp only [rtt_write, he, run_done]

/-- Witness for C8: channel 0 with DTR not asserted, 100 bytes. -/
theorem write_gate_closed_witness :
    rtt_write { accept_all with gdb_serial_get_dtr := false } 0 100 7
      = some (100, { writes := 0, readings := 0, trace := [] }) :=
  write_gate_closed { accept_all with gdb_serial_get_dtr := false } 0 100
    (Or.inr (Or.inr (Or.inl rfl))) 7

/-- C6: a transport that never accepts a byte. With `len > 0`, the gate open,
`tud_cdc_n_write` always returning 0 and a non-decreasing 32-bit clock that
eventually reads at least `start_ms + 25`, `rtt_write(0, buf, len)` returns 0
without a flush. Reading 0 is `start_ms`; the call ends at reading `j`, the
first one with `t - start_ms >= 25`, after exactly `j` failed attempts at the
first chunk, every earlier reading being less than 25 ms after the start. -/
theorem write_rejecting_transport_aborts (env : Env) (len : Nat)
    (hlen0 : 0 < len) (hlen : len < UINT32_MOD)
    (hcfg : env.usb_get_config = true) (hdtr : env.gdb_serial_get_dtr = true)
    (hcon : env.tud_cdc_n_connected = true)
    (hrej : ∀ i p plen, env.tud_cdc_n_write i p plen = 0)
    (hmono : ∀ i j, i ≤ j → env.platform_time_ms i ≤ env.platform_time_ms j)
    (h32 : ∀ j, env.platform_time_ms j < UINT32_MOD)
    (hev : ∃ j, env.platform_time_ms 0 + 25 ≤ env.platform_time_ms j) :
    ∃ j fuel, 1 ≤ j ∧
      env.platform_time_ms 0 + 25 ≤ env.platform_time_ms j ∧
      (∀ i, i < j → env.platform_time_ms i < env.platform_time_ms 0 + 25) ∧
      rtt_write env 0 len fuel
        = some (0,
            { writes := j, readings := j + 1,
              trace := List.replicate j (Event.write 0 (MIN 64 len) 0) }) := by
  classical
  have hj := Nat.find_spec hev
  have hmin : ∀ i, i < Nat.find hev →
      env.platform_time_ms i < env.platform_time_ms 0 + 25 := by
    intro i hi
    have := Nat.find_min hev hi
    omega
  have hj1 : 1 ≤ Nat.find hev := by
    rcases Nat.eq_zero_or_pos (Nat.find hev) with h0 | h0
    · rw [h0] at hj; omega
    · exact h0
  have hclk : ∀ i, sub32 (clock_reading env i) (clock_reading env 0)
      = env.platform_time_ms i - env.platform_time_ms 0 := by
    intro i
    unfold clock_reading
    rw [mod32_of_lt (h32 i), mod32_of_lt (h32 0)]
    exact sub32_of_le (hmono 0 i (Nat.zero_le i)) (h32 i)
  have hplen : 0 < MIN 64 len := MIN_pos (by decide) hlen0
  refine ⟨Nat.find hev, 1 + (Nat.find hev - 1 + 1), hj1, hj, hmin, ?_⟩
  unfold rtt_write
  rw [entry_gate_open (by omega) hcfg hdtr hcon, run_add, run_one]
  rw [step_enter hlen0, sub32_of_le (Nat.zero_le len) hlen, Nat.sub_zero]
  rw [run_timeout env len 0 (MIN 64 len) (clock_reading env 0) (Nat.find hev - 1)]
  · simp only [Nat.zero_add, List.nil_append, attempt_writes_rejected env 0 (MIN 64 len) hrej]
    rw [show Nat.find hev - 1 + 1 = Nat.find hev by omega, Nat.add_comm 1]
  · intro i _
    rw [hrej]
    simp only [Nat.zero_mod]
    omega
  · intro i hi
    simp only [Nat.zero_add]
    rw [hclk]
    have := hmin (1 + i) (by omega)
    omega
  · simp only [Nat.zero_add]
    rw [hclk, show 1 + (Nat.find hev - 1) = Nat.find hev by omega]
    omega

/-- Witness for C6: a clock reading 1000, 1010, 1020, 1030 aborts a 10-byte
write at its fourth reading. -/
theorem write_rejecting_transport_aborts_witness :
    ∃ j fuel, 1 ≤ j ∧
      accept_none.platform_time_ms 0 + 25 ≤ accept_none.platform_time_ms j ∧
      (∀ i, i < j → accept_none.platform_time_ms i < accept_none.platform_time_ms 0 + 25) ∧
      rtt_write accept_none 0 10 fuel
        = some (0,
            { writes := j, readings := j + 1,
              trace := List.replicate j (Event.write 0 (MIN 64 10) 0) }) :=
  write_rejecting_transport_aborts accept_none 10 (by decide) (by decide) rfl rfl rfl
    (fun _ _ _ => rfl)
    (fun i j h => by simp only [accept_none]; omega)
    (fun j => by simp only [accept_none, UINT32_MOD]; omega)
    ⟨3, by decide⟩

/-- Abort from the loop test of a later chunk: once the run has reached the
test `p < len` with `p = 64 * j`, failed attempts at that chunk up to a reading
at least 25 ms after its start reading end the call with 0 and no flush. -/
theorem abort_after_reaching_chunk (env : Env) (len j fuel0 d : Nat) (io : IoLog)
    (hlen : len < UINT32_MOD) (_h64 : 64 < len) (hj1 : 1 ≤ j) (hj : j < chunk_count len)
    (hreach : rtt_write_run env len fuel0 (rtt_write_entry env 0 len)
      = .loop_head (64 * j) io)
    (hrej : ∀ i, i ≤ d →
      env.tud_cdc_n_write (io.writes + i) (64 * j) (MIN 64 (len - 64 * j)) % UINT32_MOD
        ≠ MIN 64 (len - 64 * j))
    (hdead : 25 ≤ sub32 (clock_reading env (io.readings + 1 + d))
      (clock_reading env io.readings)) :
    ∃ fuel n, 1 ≤ n ∧ n ≤ d + 1 ∧
      rtt_write env 0 len fuel
        = some (0,
            { writes := io.writes + n, readings := io.readings + 1 + n,
              trace := io.trace
                ++ attempt_writes env (64 * j) (MIN 64 (len - 64 * j)) io.writes n }) ∧
      0 ≠ 64 * j ∧
      Event.flush ∉
        io.trace ++ attempt_writes env (64 * j) (MIN 64 (len - 64 * j)) io.writes n ∧
      ∀ i, i < j →
        Event.write (64 * i) (MIN 64 (len - 64 * i)) (MIN 64 (len - 64 * i)) ∈ io.trace := by
  classical
  have hinv := run_inv env hlen fuel0 _ (entry_inv env 0 len)
  rw [hreach] at hinv
  obtain ⟨_, _, hnf, hsent⟩ := hinv
  have hlt : 64 * j < len := by unfold chunk_count at hj; omega
  have hex : ∃ n, 25 ≤ sub32 (clock_reading env (io.readings + 1 + n))
      (clock_reading env io.readings) := ⟨d, hdead⟩
  have hle : Nat.find hex ≤ d := Nat.find_le hdead
  refine ⟨fuel0 + (1 + (Nat.find hex + 1)), Nat.find hex + 1, by omega, by omega, ?_, by omega,
    ?_, ?_⟩
  · unfold rtt_write
    rw [run_add, hreach, run_add, run_one, step_enter hlt, sub32_of_le (by omega) hlen]
    rw [run_timeout env len (64 * j) (MIN 64 (len - 64 * j)) (clock_reading env io.readings)
      (Nat.find hex)]
    · intro i hi
      exact hrej i (by omega)
    · intro i hi
      have := Nat.find_min hex hi
      simp only at this ⊢
      omega
    · exact Nat.find_spec hex
  · simp only [List.mem_append, not_or]
    exact ⟨hnf, attempt_writes_no_flush env _ _ _ _⟩
  · intro i hi
    exact hsent i (by omega)

/-! ## Further lemmas on the ring buffer -/

theorem ring_dist_int {N t h : Nat} (ht : t < N) (hh : h < N) :
    ((ring_dist N t h : Nat) : Int) = ((h : Int) - (t : Int)) % (N : Int) := by
  unfold ring_dist
  have h1 := mod_lt_two_cases (a := h + N - t) (N := N) (by omega)
  by_cases hle : t ≤ h
  · have e : ((h : Int) - (t : Int)) % (N : Int) = (h : Int) - (t : Int) :=
      Int.emod_eq_of_lt (by omega) (by omega)
    rw [e]
    omega
  · have e : ((h : Int) - (t : Int)) % (N : Int) = (h : Int) - (t : Int) + (N : Int) := by
      rw [← Int.add_emod_self]
      exact Int.emod_eq_of_lt (by omega) (by omega)
    rw [e]
    omega

theorem ring_slot_ne_head {N t h i : Nat} (ht : t < N) (hh : h < N)
    (hi : i < ring_dist N t h) : (t + i) % N ≠ h := by
  unfold ring_dist at hi
  have h1 := mod_lt_two_cases (a := h + N - t) (N := N) (by omega)
  have h2 := mod_lt_two_cases (a := t + i) (N := N) (by omega)
  omega

theorem push_char_slot {N : Nat} {st : RecvState} (c : Int) (j : Nat)
    (hj : j ≠ st.recv_head) :
    (push_char N st c).recv_buf.getD j 0 = st.recv_buf.getD j 0 := by
  simp [push_char, List.getD_eq_getElem?_getD, List.getElem?_set_ne (Ne.symm hj)]

theorem recv_copy_frame {N : Nat} (usb_buf : List Int) :
    ∀ st : RecvState, st.WF N →
      ∀ i, i < ring_dist N st.recv_tail st.recv_head →
        (recv_copy N st usb_buf).recv_buf.getD ((st.recv_tail + i) % N) 0
          = st.recv_buf.getD ((st.recv_tail + i) % N) 0 := by
  induction usb_buf with
  | nil => intro st _ i _; rfl
  | cons c rest ih =>
    intro st hwf i hi
    by_cases hfull : add32 st.recv_head 1 % N = st.recv_tail
    · rw [recv_copy_full hwf ((full_iff hwf).2 hfull)]
    · obtain ⟨hwf1, ht1, hh1, _⟩ := push_char_spec c hwf hfull
      have hfull2 : (st.recv_head + 1) % N ≠ st.recv_tail := by
        rw [← next_index_eq hwf.2.1 hwf.2.2.2]; exact hfull
      have hd := ring_dist_push hwf.2.2.1 hwf.2.1 hfull2
      rw [recv_copy_cons c rest hfull]
      have := ih (push_char N st c) hwf1 i (by rw [ht1, hh1, hd]; omega)
      rw [ht1] at this
      rw [this]
      exact push_char_slot c _ (ring_slot_ne_head hwf.2.2.1 hwf.2.1 hi)

theorem callback_cases {N : Nat} (skip : Bool) (usb_buf : List Int) (st : RecvState) :
    rtt_serial_receive_callback N skip usb_buf st = st ∨
      rtt_serial_receive_callback N skip usb_buf st = recv_copy N st usb_buf := by
  by_cases hc : (skip && decide (usb_buf.length > recv_bytes_free N st)) = true
  · exact Or.inl (if_pos hc)
  · exact Or.inr (if_neg hc)

/-! ## Further claims about the receive ring buffer -/

/-- C11: the value of `recv_bytes_free()`. For `recv_head < N` and
`recv_tail < N` it is `N - 1 - ((recv_head - recv_tail) mod N)` and lies in
`[0, N-1]`; neither branch wraps: with `recv_tail <= recv_head` the exact value
`N - recv_head + recv_tail` is at least 1 and below `2^32`, otherwise
`recv_tail - recv_head` is at least 1; it is 0 exactly when the buffer is full
and `N - 1` exactly when it is empty. -/
theorem recv_bytes_free_formula (N : Nat) (st : RecvState)
    (hh : st.recv_head < N) (ht : st.recv_tail < N) (hN : N < UINT32_MOD) :
    ((recv_bytes_free N st : Nat) : Int)
      = (N : Int) - 1 - ((st.recv_head : Int) - (st.recv_tail : Int)) % (N : Int) ∧
    recv_bytes_free N st ≤ N - 1 ∧
    (st.recv_tail ≤ st.recv_head →
      st.recv_head ≤ N ∧ 1 ≤ N - st.recv_head + st.recv_tail ∧
      N - st.recv_head + st.recv_tail < UINT32_MOD ∧
      recv_bytes_free N st = N - st.recv_head + st.recv_tail - 1) ∧
    (¬ st.recv_tail ≤ st.recv_head →
      1 ≤ st.recv_tail - st.recv_head ∧
      recv_bytes_free N st = st.recv_tail - st.recv_head - 1) ∧
    (recv_bytes_free N st = 0 ↔ (st.recv_head + 1) % N = st.recv_tail) ∧
    (recv_bytes_free N st = N - 1 ↔ st.recv_head = st.recv_tail) := by
  have hwf : RecvState.WF N { st with recv_buf := List.replicate N 0 } :=
    ⟨by simp, hh, ht, hN⟩
  have hfree : recv_bytes_free N st = N - 1 - ring_dist N st.recv_tail st.recv_head :=
    @recv_bytes_free_eq N { st with recv_buf := List.replicate N 0 } hwf
  have hint := ring_dist_int ht hh
  have hlt := ring_dist_lt (N := N) (h := st.recv_head) ht
  have hz := ring_dist_eq_zero_iff ht hh
  have hfull : recv_bytes_free N st = 0 ↔ add32 st.recv_head 1 % N = st.recv_tail :=
    @full_iff N { st with recv_buf := List.replicate N 0 } hwf
  rw [next_index_eq hh hN] at hfull
  have h1 := mod_lt_two_cases (a := st.recv_head + N - st.recv_tail) (N := N) (by omega)
  refine ⟨?_, by omega, ?_, ?_, hfull, ?_⟩
  · rw [← hint, hfree]
    omega
  · intro hle
    unfold ring_dist at hfree
    unfold UINT32_MOD at hN ⊢
    omega
  · intro hle
    unfold ring_dist at hfree
    omega
  · rw [hfree]
    constructor
    · intro h
      exact (hz.1 (by omega)).symm
    · intro h
      have := hz.2 h.symm
      omega

/-- Witness for C11: capacity 8 with `recv_head = 2` behind `recv_tail = 5`
leaves two free slots. -/
theorem recv_bytes_free_formula_witness :
    ((recv_bytes_free 8 { recv_buf := [], recv_head := 2, recv_tail := 5 } : Nat) : Int)
      = (8 : Int) - 1 - ((2 : Int) - 5) % 8 :=
  (recv_bytes_free_formula 8 { recv_buf := [], recv_head := 2, recv_tail := 5 }
    (by decide) (by decide) (by decide)).1

/-- C12: reading a non-empty buffer. With `recv_head != recv_tail`,
`rtt_getchar(0)` returns the oldest queued byte `recv_buf[recv_tail]` cast to
`uint8_t`, a value in `0..255` and never -1 (the raw byte `b` also when it is
held in a signed `char` as `b - 256`), moves `recv_tail` to
`(recv_tail + 1) mod N` and leaves `recv_head` and `recv_buf` as they were. -/
theorem getchar_pops_oldest (N : Nat) (st : RecvState) (hwf : st.WF N)
    (hne : st.recv_head ≠ st.recv_tail) :
    rtt_getchar N 0 st
      = (to_uint8 (st.recv_buf.getD st.recv_tail 0),
          { st with recv_tail := (st.recv_tail + 1) % N }) ∧
    0 ≤ (rtt_getchar N 0 st).1 ∧ (rtt_getchar N 0 st).1 < 256 ∧
    (rtt_getchar N 0 st).1 ≠ -1 ∧
    pending N st = st.recv_buf.getD st.recv_tail 0 :: pending N (rtt_getchar N 0 st).2 ∧
    ∀ (isSigned : Bool) (b : Nat), b < 256 →
      st.recv_buf.getD st.recv_tail 0 = char_of_byte isSigned b →
      (rtt_getchar N 0 st).1 = (b : Int) := by
  obtain ⟨hv, _, _, _, _, hp⟩ := getchar_spec 0 hwf hne
  have hg : rtt_getchar N 0 st
      = (to_uint8 (st.recv_buf.getD st.recv_tail 0),
          { st with recv_tail := (st.recv_tail + 1) % N }) := by
    simp [rtt_getchar, hne, next_index_eq hwf.2.2.1 hwf.2.2.2]
  refine ⟨hg, ?_, ?_, ?_, hp, ?_⟩
  · rw [hv]; unfold to_uint8; omega
  · rw [hv]; unfold to_uint8; omega
  · rw [hv]; exact to_uint8_ne_neg_one _
  · intro isSigned b hb hc
    rw [hv, hc]
    exact to_uint8_char_of_byte isSigned hb

/-- Witness for C12: the byte 0xC8 held in a signed `char` as -56 at the wrap
position of a buffer of capacity 4 comes back as 200. -/
theorem getchar_pops_oldest_witness :
    rtt_getchar 4 0 { recv_buf := [7, 0, 0, -56], recv_head := 1, recv_tail := 3 }
      = (200, { recv_buf := [7, 0, 0, -56], recv_head := 1, recv_tail := 0 }) :=
  (getchar_pops_oldest 4 { recv_buf := [7, 0, 0, -56], recv_head := 1, recv_tail := 3 }
    (by simp [RecvState.WF, UINT32_MOD]) (by decide)).1

/-- C13: the function `rtt_nodata`. On channel 0 it is true exactly when
`recv_head == recv_tail`; on every other channel it is true whatever the buffer
holds. It only reads the two indices: its result is a function of the state and
there is no state afterwards other than the one it was given. -/
theorem nodata_iff_empty (st : RecvState) :
    (rtt_nodata 0 st = true ↔ st.recv_head = st.recv_tail) ∧
    ∀ channel, channel ≠ 0 → rtt_nodata channel st = true := by
  constructor
  · simp [rtt_nodata]
  · intro channel hc
    simp [rtt_nodata, hc]

/-- C14: the callback only appends. For a well-formed state, any batch of up to
64 bytes and either flag, `rtt_serial_receive_callback` keeps `recv_tail`,
leaves every slot in the circular range from `recv_tail` up to the old
`recv_head` as it was, and extends the queue at its end: reading the old
number of bytes gives the same sequence before and after the call. -/
theorem callback_frame (N : Nat) (st : RecvState) (skip : Bool) (usb_buf : List Int)
    (hwf : st.WF N) (_h64 : usb_buf.length ≤ 64) :
    (rtt_serial_receive_callback N skip usb_buf st).recv_tail = st.recv_tail ∧
    (∀ i, i < ring_dist N st.recv_tail st.recv_head →
      (rtt_serial_receive_callback N skip usb_buf st).recv_buf.getD
          ((st.recv_tail + i) % N) 0
        = st.recv_buf.getD ((st.recv_tail + i) % N) 0) ∧
    (∃ extra, pending N (rtt_serial_receive_callback N skip usb_buf st)
      = pending N st ++ extra) ∧
    (getchar_many N 0 (pending N st).length
        (rtt_serial_receive_callback N skip usb_buf st)).1
      = (getchar_many N 0 (pending N st).length st).1 := by
  have hold := (getchar_many_spec (N := N) 0 (pending N st) st [] hwf (by simp)).1
  rcases callback_cases (N := N) skip usb_buf st with h | h
  · rw [h]
    exact ⟨rfl, fun _ _ => rfl, ⟨[], by simp⟩, rfl⟩
  · rw [h]
    obtain ⟨hwf1, ht1, _, hp1⟩ := recv_copy_spec (N := N) usb_buf st hwf
    refine ⟨ht1, recv_copy_frame usb_buf st hwf, ⟨_, hp1⟩, ?_⟩
    rw [hold]
    exact (getchar_many_spec (N := N) 0 (pending N st) _ _ hwf1 hp1).1

/-- Witness for C14: capacity 4 holding bytes 1 and 2, then a batch of three. -/
theorem callback_frame_witness :
    (getchar_many 4 0 2
        (rtt_serial_receive_callback 4 false [3, 4, 5]
          { recv_buf := [0, 0, 1, 2], recv_head := 0, recv_tail := 2 })).1
      = [1, 2] :=
  (callback_frame 4 { recv_buf := [0, 0, 1, 2], recv_head := 0, recv_tail := 2 } false
    [3, 4, 5] (by simp [RecvState.WF, UINT32_MOD]) (by decide)).2.2.2

/-- C19: the two overflow policies agree on a batch that fits. For a
well-formed state and a batch of `k <= recv_bytes_free()` bytes (`k <= 64`),
the callback ends in the same state with `rtt_flag_skip` true and false: all
`k` bytes are queued in order, `recv_head` advances by `k` modulo `N`,
`recv_tail` is kept and `recv_bytes_free()` drops by exactly `k`. Hence, for
any batch, the drop-whole-chunk policy either leaves the state as it was
(0 bytes accepted) or queues the whole batch (`k` bytes accepted). -/
theorem policies_agree_when_fits (N : Nat) (st : RecvState) (usb_buf : List Int)
    (hwf : st.WF N) (_h64 : usb_buf.length ≤ 64) :
    (usb_buf.length ≤ recv_bytes_free N st →
      rtt_serial_receive_callback N true usb_buf st
        = rtt_serial_receive_callback N false usb_buf st ∧
      pending N (rtt_serial_receive_callback N true usb_buf st) = pending N st ++ usb_buf ∧
      (rtt_serial_receive_callback N true usb_buf st).recv_head
        = (st.recv_head + usb_buf.length) % N ∧
      (rtt_serial_receive_callback N true usb_buf st).recv_tail = st.recv_tail ∧
      recv_bytes_free N (rtt_serial_receive_callback N true usb_buf st) + usb_buf.length
        = recv_bytes_free N st) ∧
    (rtt_serial_receive_callback N true usb_buf st = st ∨
      pending N (rtt_serial_receive_callback N true usb_buf st) = pending N st ++ usb_buf) := by
  have hfit : usb_buf.length ≤ recv_bytes_free N st →
      rtt_serial_receive_callback N true usb_buf st
        = rtt_serial_receive_callback N false usb_buf st ∧
      pending N (rtt_serial_receive_callback N true usb_buf st) = pending N st ++ usb_buf ∧
      (rtt_serial_receive_callback N true usb_buf st).recv_head
        = (st.recv_head + usb_buf.length) % N ∧
      (rtt_serial_receive_callback N true usb_buf st).recv_tail = st.recv_tail ∧
      recv_bytes_free N (rtt_serial_receive_callback N true usb_buf st) + usb_buf.length
        = recv_bytes_free N st := by
    intro hle
    obtain ⟨hwf1, ht1, hh1, hp1⟩ := recv_copy_spec (N := N) usb_buf st hwf
    rw [List.take_of_length_le hle] at hp1
    rw [Nat.min_eq_left hle] at hh1
    rw [callback_fits true usb_buf hle, callback_fits false usb_buf hle]
    refine ⟨rfl, hp1, hh1, ht1, ?_⟩
    have a := free_add_pending hwf
    have b := free_add_pending hwf1
    rw [hp1, List.length_append] at b
    omega
  refine ⟨hfit, ?_⟩
  by_cases hle : usb_buf.length ≤ recv_bytes_free N st
  · exact Or.inr (hfit hle).2.1
  · exact Or.inl (skip_rejects_batch N st usb_buf (by omega))

/-- Witness for C19: three bytes into the empty buffer of capacity 8. -/
theorem policies_agree_when_fits_witness :
    rtt_serial_receive_callback 8 true [1, 2, 3] (recv_init 8)
      = rtt_serial_receive_callback 8 false [1, 2, 3] (recv_init 8) :=
  ((policies_agree_when_fits 8 (recv_init 8) [1, 2, 3]
    (by simp [RecvState.WF, recv_init, UINT32_MOD]) (by decide)).1 (by decide)).1

theorem recv_copy_inbounds {N : Nat} (usb_buf : List Int) :
    ∀ st : RecvState, st.InBounds N → (recv_copy N st usb_buf).InBounds N := by
  induction usb_buf with
  | nil => intro st h; exact h
  | cons c rest ih =>
    intro st h
    by_cases hfull : add32 st.recv_head 1 % N = st.recv_tail
    · simp only [recv_copy, hfull, if_true]
      exact h
    · rw [recv_copy_cons c rest hfull]
      apply ih
      obtain ⟨hlen, hh, ht⟩ := h
      exact ⟨by simp [push_char, hlen], Nat.mod_lt _ (by omega), ht⟩

theorem callback_inbounds {N : Nat} {st : RecvState} (skip : Bool) (usb_buf : List Int)
    (h : st.InBounds N) : (rtt_serial_receive_callback N skip usb_buf st).InBounds N := by
  rcases callback_cases (N := N) skip usb_buf st with e | e
  · rw [e]; exact h
  · rw [e]; exact recv_copy_inbounds usb_buf st h

theorem getchar_inbounds {N : Nat} {st : RecvState} (channel : Nat) (h : st.InBounds N) :
    (rtt_getchar N channel st).2.InBounds N := by
  by_cases he : st.recv_head = st.recv_tail
  · rw [getchar_empty channel he]
    exact h
  · obtain ⟨hlen, hh, ht⟩ := h
    simp only [rtt_getchar, he, if_false]
    exact ⟨hlen, hh, Nat.mod_lt _ (by omega)⟩

theorem foldl_apply_inbounds {N : Nat} (ops : List RecvOp) :
    ∀ st : RecvState, st.InBounds N → (ops.foldl (RecvOp.apply N) st).InBounds N := by
  induction ops with
  | nil => intro st h; exact h
  | cons op rest ih =>
    intro st h
    apply ih
    cases op with
    | receive skip usb_buf => exact callback_inbounds skip usb_buf h
    | getchar channel => exact getchar_inbounds channel h

theorem recv_copy_checked_eq {N : Nat} (usb_buf : List Int) :
    ∀ (rest : List Int) (i : Nat) (st : RecvState), st.InBounds N →
      usb_buf.drop i = rest → i + rest.length ≤ 64 →
      recv_copy_checked N usb_buf rest.length i st = some (recv_copy N st rest) := by
  intro rest
  induction rest with
  | nil => intro i st _ _ _; rfl
  | cons c rest ih =>
    intro i st h hdrop h64
    have hi : i < usb_buf.length := by
      by_contra hge
      rw [List.drop_of_length_le (by omega)] at hdrop
      exact List.noConfusion hdrop
    have hc : usb_buf.getD i 0 = c := by
      have := congrArg List.head? hdrop
      rw [List.head?_drop] at this
      simp [List.getD_eq_getElem?_getD, this]
    have hrest : usb_buf.drop (i + 1) = rest := by
      have := congrArg List.tail hdrop
      rw [List.tail_drop] at this
      simpa using this
    simp only [List.length_cons] at h64
    by_cases hfull : add32 st.recv_head 1 % N = st.recv_tail
    · simp [recv_copy_checked, recv_copy, hfull]
    · have hacc : i < usb_buf.length ∧ i < 64 ∧ st.recv_head < st.recv_buf.length :=
        ⟨hi, by omega, by rw [h.1]; exact h.2.1⟩
      rw [recv_copy_cons c rest hfull]
      simp only [List.length_cons, recv_copy_checked, hfull, if_false, hacc, and_self, if_true]
      rw [hc]
      have hin : (push_char N st c).InBounds N :=
        ⟨by simp [push_char, h.1], Nat.mod_lt _ (by have := h.2.1; omega), h.2.2⟩
      exact ih (i + 1) (push_char N st c) hin hrest (by omega)

/-- C15: index invariant and array bounds. For every `N >= 1`, after any
finite interleaving of callback invocations (any flag, batches of up to 64
bytes) and `rtt_getchar` calls from `recv_head = recv_tail = 0`, the array has
its `N` slots and `recv_head < N`, `recv_tail < N`; a further `rtt_getchar` or
callback run with every array access checked never leaves an array: the
accesses `recv_buf[recv_tail]`, `recv_buf[recv_head]` and `usb_buf[i]`
(`i < len <= 64`) are all in range and the checked run gives the result of the
plain one. -/
theorem index_invariant (N : Nat) (ops : List RecvOp) (h1 : 1 ≤ N)
    (_h64 : ∀ skip usb_buf, RecvOp.receive skip usb_buf ∈ ops → usb_buf.length ≤ 64) :
    (recv_run N ops).recv_buf.length = N ∧
    (recv_run N ops).recv_head < N ∧ (recv_run N ops).recv_tail < N ∧
    (∀ channel, rtt_getchar_checked N channel (recv_run N ops)
      = some (rtt_getchar N channel (recv_run N ops))) ∧
    (∀ skip usb_buf, usb_buf.length ≤ 64 →
      rtt_serial_receive_callback_checked N skip usb_buf (recv_run N ops)
        = some (rtt_serial_receive_callback N skip usb_buf (recv_run N ops))) := by
  have hin : (recv_run N ops).InBounds N :=
    foldl_apply_inbounds ops _ ⟨by simp [recv_init], h1, h1⟩
  refine ⟨hin.1, hin.2.1, hin.2.2, ?_, ?_⟩
  · intro channel
    have ht : (recv_run N ops).recv_tail < (recv_run N ops).recv_buf.length := by
      rw [hin.1]; exact hin.2.2
    by_cases he : (recv_run N ops).recv_head = (recv_run N ops).recv_tail
    · simp [rtt_getchar_checked, rtt_getchar, he]
    · simp [rtt_getchar_checked, rtt_getchar, he, ht]
  · intro skip usb_buf h64
    by_cases hc : (skip && decide (usb_buf.length > recv_bytes_free N (recv_run N ops))) = true
    · simp only [rtt_serial_receive_callback_checked, rtt_serial_receive_callback, hc, if_true]
    · simp only [rtt_serial_receive_callback_checked, rtt_serial_receive_callback, hc, if_false]
      exact recv_copy_checked_eq usb_buf usb_buf 0 _ hin rfl (by omega)

/-- Witness for C15: capacity 3, a batch that overflows, a read, and a second
batch that wraps the head index. -/
theorem index_invariant_witness :
    (recv_run 3 [.receive false [1, 2, 3, 4], .getchar 0, .receive true [5]]).recv_head < 3 ∧
    (recv_run 3 [.receive false [1, 2, 3, 4], .getchar 0, .receive true [5]]).recv_tail < 3 :=
  ⟨(index_invariant 3 [.receive false [1, 2, 3, 4], .getchar 0, .receive true [5]]
      (by decide) (by
        intro skip usb_buf h
        simp at h
        rcases h with ⟨_, rfl⟩ | ⟨_, rfl⟩ <;> decide)).2.1,
    by decide⟩

/-! ## Further lemmas on the loops of `rtt_write` -/

theorem step_looping (env : Env) {len : Nat} (hlen : len < UINT32_MOD)
    (hbig : UINT32_MOD < len + 64)
    (hacc : ∀ i p plen, env.tud_cdc_n_write i p plen = plen) :
    ∀ c : Config, c.Looping → (rtt_write_step env len c).Looping := by
  intro c hc
  cases c with
  | loop_head p io =>
    obtain ⟨hp, hpm⟩ := hc
    have hlt : p < len := by unfold UINT32_MOD at *; omega
    rw [step_enter hlt]
    exact ⟨hp, hpm, MIN_le_left _ _⟩
  | attempt p plen start_ms io =>
    obtain ⟨hp, hpm, hpl⟩ := hc
    have hr : env.tud_cdc_n_write io.writes p plen % UINT32_MOD = plen := by
      rw [hacc]
      exact mod32_of_lt (by unfold UINT32_MOD; omega)
    rw [step_accept hr]
    refine ⟨?_, ?_⟩
    · unfold add32 UINT32_MOD; omega
    · unfold add32; exact Nat.mod_lt _ (by unfold UINT32_MOD; omega)
  | done ret io => exact hc.elim

theorem run_looping (env : Env) {len : Nat} (hlen : len < UINT32_MOD)
    (hbig : UINT32_MOD < len + 64)
    (hacc : ∀ i p plen, env.tud_cdc_n_write i p plen = plen) :
    ∀ (n : Nat) (c : Config), c.Looping → (rtt_write_run env len n c).Looping := by
  intro n
  induction n with
  | zero => intro c hc; exact hc
  | succ n ih => intro c hc; exact ih _ (step_looping env hlen hbig hacc c hc)

theorem looping_no_flush {len : Nat} {c : Config} (hl : c.Looping) (hi : c.Inv len) :
    Event.flush ∉ c.io.trace := by
  cases c with
  | loop_head p io => exact hi.2.2.1
  | attempt p plen start_ms io => exact hi.2.2.2.1
  | done ret io => exact hl.elim

theorem run_chunks_wrap (env : Env) (len : Nat) (hlen : len < UINT32_MOD)
    (hbig : UINT32_MOD < len + 64)
    (hacc : ∀ i p plen, env.tud_cdc_n_write i p plen = plen) :
    ∀ i : Nat, i ≤ 67108864 →
      rtt_write_run env len (2 * i) (.loop_head 0 { writes := 0, readings := 0, trace := [] })
        = .loop_head (64 * i % UINT32_MOD)
            { writes := i, readings := i, trace := full_writes len 0 i } := by
  intro i
  induction i with
  | zero => intro _; rfl
  | succ i ih =>
    intro hi
    have hM : UINT32_MOD = 4294967296 := rfl
    have hlt : 64 * i < len := by omega
    rw [show 2 * (i + 1) = 2 * i + 2 by ring, run_add, ih (by omega)]
    rw [mod32_of_lt (by omega)]
    have hs : sub32 len (64 * i) = len - 64 * i := sub32_of_le (by omega) hlen
    have hm : MIN 64 (len - 64 * i) % UINT32_MOD = MIN 64 (len - 64 * i) :=
      mod32_of_lt (by have := MIN_le_left 64 (len - 64 * i); omega)
    have hp : add32 (64 * i) 64 = 64 * (i + 1) % UINT32_MOD := by
      unfold add32
      rw [show 64 * i + 64 = 64 * (i + 1) by ring]
    simp only [rtt_write_run]
    rw [step_enter hlt, hs, step_accept (by rw [hacc]; exact hm), hp, full_writes_snoc]
    simp

theorem run_accepting (env : Env) (len : Nat) (h0 : len ≠ 0)
    (hlen : len + 64 ≤ UINT32_MOD)
    (hcfg : env.usb_get_config = true) (hdtr : env.gdb_serial_get_dtr = true)
    (hcon : env.tud_cdc_n_connected = true)
    (hacc : ∀ i p plen, env.tud_cdc_n_write i p plen = plen) :
    rtt_write env 0 len (2 * chunk_count len + 1)
      = some (len,
          { writes := chunk_count len, readings := chunk_count len,
            trace := full_writes len 0 (chunk_count len) ++ [Event.flush] }) := by
  have hcc1 : 64 * chunk_count len < len + 64 := by unfold chunk_count; omega
  have hcc2 : ¬ 64 * chunk_count len < len := by unfold chunk_count; omega
  unfold rtt_write
  rw [entry_gate_open h0 hcfg hdtr hcon, run_add, run_full_chunks env len hacc hlen _ hcc1]
  simp only [rtt_write_run]
  rw [step_exit hcc2]

theorem MIN_chunk_eq (len i : Nat) :
    MIN 64 (len - 64 * i) = min (64 * i + 64) len - 64 * i := by
  unfold MIN
  split <;> omega

theorem full_writes_getElem (len : Nat) :
    ∀ (k a i : Nat), i < k →
      (full_writes len a k)[i]?
        = some (Event.write (64 * (a + i)) (MIN 64 (len - 64 * (a + i)))
            (MIN 64 (len - 64 * (a + i)))) := by
  intro k
  induction k with
  | zero => intro a i hi; omega
  | succ k ih =>
    intro a i hi
    cases i with
    | zero => simp [full_writes]
    | succ i =>
      rw [full_writes, List.getElem?_cons_succ, ih (a + 1) i (by omega)]
      rw [show a + 1 + i = a + (i + 1) by omega]

theorem trace_bytes_append (buf : List Int) (l1 l2 : List Event) :
    trace_bytes buf (l1 ++ l2) = trace_bytes buf l1 ++ trace_bytes buf l2 := by
  induction l1 with
  | nil => rfl
  | cons e rest ih => simp [trace_bytes, ih]

theorem trace_bytes_full_writes (buf : List Int) (len : Nat) (hbuf : buf.length = len) :
    ∀ (k a : Nat), trace_bytes buf (full_writes len a k) = (buf.drop (64 * a)).take (64 * k) := by
  intro k
  induction k with
  | zero => intro a; simp [full_writes, trace_bytes]
  | succ k ih =>
    intro a
    rw [full_writes, trace_bytes, ih (a + 1), show 64 * (k + 1) = 64 + 64 * k by ring,
      List.take_add, List.drop_drop, show 64 * a + 64 = 64 * (a + 1) by ring]
    congr 1
    simp only [Event.bytes]
    rw [List.take_eq_take, List.length_drop, hbuf]
    unfold MIN
    split <;> omega

theorem run_retries (env : Env) (len p plen start_ms : Nat) :
    ∀ (k : Nat) (io : IoLog),
      (∀ i, i < k → env.tud_cdc_n_write (io.writes + i) p plen % UINT32_MOD ≠ plen) →
      (∀ i, i < k → sub32 (clock_reading env (io.readings + i)) start_ms < 25) →
      rtt_write_run env len k (.attempt p plen start_ms io)
        = .attempt p plen start_ms
            { writes := io.writes + k, readings := io.readings + k,
              trace := io.trace ++ attempt_writes env p plen io.writes k } := by
  intro k
  induction k with
  | zero =>
    intro io _ _
    cases io
    simp [rtt_write_run, attempt_writes]
  | succ k ih =>
    intro io hrej hearly
    rw [rtt_write_run, step_retry (by simpa using hrej 0 (Nat.succ_pos k))
      (by simpa using hearly 0 (Nat.succ_pos k))]
    rw [ih]
    · simp [attempt_writes, Nat.add_assoc, Nat.add_comm 1]
    · intro i hi
      have := hrej (i + 1) (by omega)
      simpa [Nat.add_assoc, Nat.add_comm 1 i] using this
    · intro i hi
      have := hearly (i + 1) (by omega)
      simpa [Nat.add_assoc, Nat.add_comm 1 i] using this

theorem sub32_elapsed {s e : Nat} (hs : s < UINT32_MOD) (he : e < UINT32_MOD) :
    sub32 ((s + e) % UINT32_MOD) s = e := by
  unfold sub32 UINT32_MOD at *
  omega

theorem sub32_int {t s : Nat} (ht : t < UINT32_MOD) (hs : s < UINT32_MOD) :
    ((sub32 t s : Nat) : Int) = ((t : Int) - (s : Int)) % 4294967296 := by
  unfold sub32 UINT32_MOD at *
  omega

theorem clock_reading_lt (env : Env) (j : Nat) : clock_reading env j < UINT32_MOD :=
  Nat.mod_lt _ (by decide)

/-! ## Further claims about `rtt_write` -/

/-- C16: wrap-around of the chunk offset. With the gate open and a transport
that accepts every chunk in full: for `len <= 2^32 - 64` the loop exits after
exactly `ceil(len/64)` iterations (that many writes and start-time readings)
and the call returns `len`; for `2^32 - 64 < len < 2^32` the offset reaches
`2^32 - 64`, wraps to 0 after `2^26` iterations with `p < len` still true, and
the call never returns and never flushes, whatever the number of steps. -/
theorem chunk_offset_wrap (env : Env) (len : Nat) (hlen : len < UINT32_MOD)
    (hcfg : env.usb_get_config = true) (hdtr : env.gdb_serial_get_dtr = true)
    (hcon : env.tud_cdc_n_connected = true)
    (hacc : ∀ i p plen, env.tud_cdc_n_write i p plen = plen) :
    (len + 64 ≤ UINT32_MOD →
      ∃ fuel trace, rtt_write env 0 len fuel
        = some (len,
            { writes := chunk_count len, readings := chunk_count len, trace := trace })) ∧
    (UINT32_MOD < len + 64 →
      rtt_write_run env len (2 * 67108863) (rtt_write_entry env 0 len)
        = .loop_head (UINT32_MOD - 64)
            { writes := 67108863, readings := 67108863,
              trace := full_writes len 0 67108863 } ∧
      rtt_write_run env len (2 * 67108864) (rtt_write_entry env 0 len)
        = .loop_head 0
            { writes := 67108864, readings := 67108864,
              trace := full_writes len 0 67108864 } ∧
      (∀ fuel, rtt_write env 0 len fuel = none) ∧
      ∀ fuel, Event.flush ∉ (rtt_write_run env len fuel (rtt_write_entry env 0 len)).io.trace) := by
  constructor
  · intro hsmall
    by_cases h0 : len = 0
    · subst h0
      exact ⟨0, [], rfl⟩
    · exact ⟨_, _, run_accepting env len h0 hsmall hcfg hdtr hcon hacc⟩
  · intro hbig
    have h0 : len ≠ 0 := by unfold UINT32_MOD at hbig; omega
    have hentry := entry_gate_open h0 hcfg hdtr hcon
    have hloop : ∀ fuel, (rtt_write_run env len fuel (rtt_write_entry env 0 len)).Looping := by
      intro fuel
      apply run_looping env hlen hbig hacc
      rw [hentry]
      exact ⟨rfl, by decide⟩
    refine ⟨?_, ?_, ?_, ?_⟩
    · rw [hentry, run_chunks_wrap env len hlen hbig hacc 67108863 (by decide)]
      rfl
    · rw [hentry, run_chunks_wrap env len hlen hbig hacc 67108864 (by decide)]
      rfl
    · intro fuel
      have := hloop fuel
      unfold rtt_write
      cases hc : rtt_write_run env len fuel (rtt_write_entry env 0 len) with
      | loop_head p io => rfl
      | attempt p plen start_ms io => rfl
      | done ret io => rw [hc] at this; exact this.elim
    · intro fuel
      exact looping_no_flush (hloop fuel) (run_inv env hlen fuel _ (entry_inv env 0 len))

/-- Witness for C16: the largest `uint32_t` length never returns. -/
theorem chunk_offset_wrap_witness : rtt_write accept_all 0 4294967295 1000 = none :=
  ((chunk_offset_wrap accept_all 4294967295 (by decide) rfl rfl rfl (fun _ _ _ => rfl)).2
    (by decide)).2.2.1 1000

/-- C17: payload integrity on egress. For `0 < len <= 2^32 - 64`, a payload
`buf` of `len` bytes, the gate open and a transport that accepts each chunk in
full on its first attempt, the call returns `len`; transport call number `i`
is the write of `buf[64*i .. min(64*i + 64, len))`; the bytes of all calls in
order are exactly `buf`; every chunk but the last has 64 bytes; and the one
flush is the call after the last write. -/
theorem write_payload_integrity (env : Env) (len : Nat) (buf : List Int)
    (hbuf : buf.length = len) (h0 : 0 < len) (hlen : len + 64 ≤ UINT32_MOD)
    (hcfg : env.usb_get_config = true) (hdtr : env.gdb_serial_get_dtr = true)
    (hcon : env.tud_cdc_n_connected = true)
    (hacc : ∀ i p plen, env.tud_cdc_n_write i p plen = plen) :
    rtt_write env 0 len (2 * chunk_count len + 1)
      = some (len,
          { writes := chunk_count len, readings := chunk_count len,
            trace := full_writes len 0 (chunk_count len) ++ [Event.flush] }) ∧
    (∀ i, i < chunk_count len →
      (full_writes len 0 (chunk_count len) ++ [Event.flush])[i]?
        = some (Event.write (64 * i) (min (64 * i + 64) len - 64 * i)
            (min (64 * i + 64) len - 64 * i)) ∧
      (Event.write (64 * i) (min (64 * i + 64) len - 64 * i)
          (min (64 * i + 64) len - 64 * i)).bytes buf
        = (buf.drop (64 * i)).take (min (64 * i + 64) len - 64 * i)) ∧
    (full_writes len 0 (chunk_count len) ++ [Event.flush])[chunk_count len]?
      = some Event.flush ∧
    (full_writes len 0 (chunk_count len) ++ [Event.flush]).length = chunk_count len + 1 ∧
    trace_bytes buf (full_writes len 0 (chunk_count len) ++ [Event.flush]) = buf ∧
    ∀ i, i + 1 < chunk_count len → min (64 * i + 64) len - 64 * i = 64 := by
  refine ⟨run_accepting env len (by omega) hlen hcfg hdtr hcon hacc, ?_, ?_, ?_, ?_, ?_⟩
  · intro i hi
    refine ⟨?_, rfl⟩
    rw [List.getElem?_append_left (by rw [full_writes_length]; exact hi),
      full_writes_getElem len _ 0 i hi, Nat.zero_add, MIN_chunk_eq]
  · have hl := full_writes_length len (chunk_count len) 0
    rw [List.getElem?_append_right (by omega), hl]
    simp
  · simp [full_writes_length]
  · rw [trace_bytes_append, trace_bytes_full_writes buf len hbuf]
    simp only [trace_bytes, Event.bytes, List.append_nil, Nat.mul_zero, List.drop_zero]
    exact List.take_of_length_le (by unfold chunk_count; omega)
  · intro i hi
    unfold chunk_count at hi
    omega

/-- Witness for C17: the 130-byte payload 0, 1, ..., 129 leaves as 64 + 64 + 2
bytes that concatenate to the payload. -/
theorem write_payload_integrity_witness :
    trace_bytes ((List.range 130).map Int.ofNat)
        (full_writes 130 0 (chunk_count 130) ++ [Event.flush])
      = (List.range 130).map Int.ofNat :=
  (write_payload_integrity accept_all 130 ((List.range 130).map Int.ofNat)
    (by simp) (by decide) (by decide) rfl rfl rfl (fun _ _ _ => rfl)).2.2.2.2.1

/-- C18: a retry hands the whole chunk over again. When a `tud_cdc_n_write`
for the chunk `(p, plen)` returns a count other than `plen` (0 or a partial
count) and the deadline is not reached, the loop stays on the same chunk and
its next transport call is again a write of `plen` bytes at offset `p`. With a
transport that takes 3 bytes of the first call and then everything, a 5-byte
payload is reported as written (`rtt_write` returns 5) while the transport has
taken its first 3 bytes twice. -/
theorem retry_resubmits_whole_chunk :
    (∀ (env : Env) (len p plen start_ms : Nat) (io : IoLog),
      env.tud_cdc_n_write io.writes p plen % UINT32_MOD ≠ plen →
      sub32 (clock_reading env io.readings) start_ms < 25 →
      rtt_write_step env len (.attempt p plen start_ms io)
        = .attempt p plen start_ms
            { writes := io.writes + 1, readings := io.readings + 1,
              trace := io.trace
                ++ [Event.write p plen (env.tud_cdc_n_write io.writes p plen % UINT32_MOD)] } ∧
      (rtt_write_step env len
          (rtt_write_step env len (.attempt p plen start_ms io))).io.trace
        = io.trace
          ++ [Event.write p plen (env.tud_cdc_n_write io.writes p plen % UINT32_MOD),
              Event.write p plen
                (env.tud_cdc_n_write (io.writes + 1) p plen % UINT32_MOD)]) ∧
    rtt_write accept_partial 0 5 4
      = some (5,
          { writes := 2, readings := 2,
            trace := [Event.write 0 5 3, Event.write 0 5 5, Event.flush] }) ∧
    trace_accepted [10, 20, 30, 40, 50] [Event.write 0 5 3, Event.write 0 5 5, Event.flush]
      = [10, 20, 30, 10, 20, 30, 40, 50] ∧
    trace_accepted [10, 20, 30, 40, 50] [Event.write 0 5 3, Event.write 0 5 5, Event.flush]
      ≠ [10, 20, 30, 40, 50] := by
  refine ⟨?_, rfl, rfl, by decide⟩
  intro env len p plen start_ms io hret hearly
  have h1 := @step_retry env len p plen start_ms io hret hearly
  refine ⟨h1, ?_⟩
  rw [h1]
  simp only [rtt_write_step]
  split_ifs <;> simp [Config.io]

/-- C20: the timeout test is wrap-safe. After a failed attempt the call aborts
exactly when `(t - s) mod 2^32 >= 25` for the reading `t` and the chunk's start
reading `s`. If the readings after the start are `(s + e i) mod 2^32` for true
elapsed times `e i < 2^32`, also across a wrap of the counter, the test value
is `e i`: the call is still retrying at every reading with `e i < 25` and
returns 0 at the first reading with `e i >= 25`. -/
theorem timeout_wrap_safe (env : Env) (len p plen start_ms d : Nat) (io : IoLog)
    (e : Nat → Nat) (hs : start_ms < UINT32_MOD)
    (hfail : ∀ i, i ≤ d → env.tud_cdc_n_write (io.writes + i) p plen % UINT32_MOD ≠ plen)
    (hread : ∀ i, i ≤ d →
      clock_reading env (io.readings + i) = (start_ms + e i) % UINT32_MOD)
    (hlt : ∀ i, i ≤ d → e i < UINT32_MOD)
    (hearly : ∀ i, i < d → e i < 25) (hdead : 25 ≤ e d) :
    ((∃ io2, rtt_write_step env len (.attempt p plen start_ms io) = .done 0 io2)
      ↔ 25 ≤ sub32 (clock_reading env io.readings) start_ms) ∧
    (∀ i, i ≤ d →
      ((sub32 (clock_reading env (io.readings + i)) start_ms : Nat) : Int)
        = ((clock_reading env (io.readings + i) : Int) - (start_ms : Int)) % 4294967296 ∧
      sub32 (clock_reading env (io.readings + i)) start_ms = e i) ∧
    (∀ k, k ≤ d →
      rtt_write_run env len k (.attempt p plen start_ms io)
        = .attempt p plen start_ms
            { writes := io.writes + k, readings := io.readings + k,
              trace := io.trace ++ attempt_writes env p plen io.writes k }) ∧
    rtt_write_run env len (d + 1) (.attempt p plen start_ms io)
      = .done 0
          { writes := io.writes + (d + 1), readings := io.readings + (d + 1),
            trace := io.trace ++ attempt_writes env p plen io.writes (d + 1) } := by
  have hsub : ∀ i, i ≤ d → sub32 (clock_reading env (io.readings + i)) start_ms = e i := by
    intro i hi
    rw [hread i hi]
    exact sub32_elapsed hs (hlt i hi)
  refine ⟨?_, ?_, ?_, ?_⟩
  · have hf0 := hfail 0 (Nat.zero_le d)
    simp only [Nat.add_zero] at hf0
    constructor
    · rintro ⟨io2, h⟩
      by_contra hn
      rw [step_retry hf0 (by omega)] at h
      exact Config.noConfusion h
    · intro h
      exact ⟨_, step_abort hf0 h⟩
  · intro i hi
    exact ⟨sub32_int (clock_reading_lt env _) hs, hsub i hi⟩
  · intro k hk
    apply run_retries
    · intro i hi
      exact hfail i (by omega)
    · intro i hi
      rw [hsub i (by omega)]
      exact hearly i (by omega)
  · apply run_timeout
    · exact hfail
    · intro i hi
      rw [hsub i (by omega)]
      exact hearly i hi
    · rw [hsub d (Nat.le_refl d)]
      exact hdead

/-- Witness for C20: the chunk starts at `2^32 - 10`; the readings `2^32 - 5`,
0, 5 and 10 are 5 to 20 ms later and keep retrying, the reading 15 is 25 ms
later and ends the call. -/
theorem timeout_wrap_safe_witness :
    sub32 15 4294967286 = 25 ∧
    rtt_write_run wrapping_clock 10 5
        (.attempt 0 10 4294967286 { writes := 0, readings := 1, trace := [] })
      = .done 0
          { writes := 5, readings := 6,
            trace := attempt_writes wrapping_clock 0 10 0 5 } :=
  ⟨by decide,
    (timeout_wrap_safe wrapping_clock 10 0 10 4294967286 4
      { writes := 0, readings := 1, trace := [] } (fun i => 5 * (i + 1)) (by decide)
      (fun i _ => by simp [wrapping_clock, UINT32_MOD])
      (fun i hi => by
        simp only [clock_reading, wrapping_clock, UINT32_MOD]
        omega)
      (fun i hi => by simp only [UINT32_MOD]; omega)
      (fun i hi => by show 5 * (i + 1) < 25; omega) (by decide)).2.2.2⟩

/-! ## Timeout after accepted chunks -/

theorem run_accepted_chunks (env : Env) (len j : Nat) (retries : Nat → Nat)
    (hlen : len < UINT32_MOD) (hlt : 64 * j < len)
    (hfail : ∀ i, i < j → ∀ t, t < retries i →
      env.tud_cdc_n_write (calls_before retries i + t) (64 * i) (MIN 64 (len - 64 * i))
          % UINT32_MOD
        ≠ MIN 64 (len - 64 * i))
    (hearly : ∀ i, i < j → ∀ t, t < retries i →
      sub32 (clock_reading env (calls_before retries i + 1 + t))
        (clock_reading env (calls_before retries i)) < 25)
    (hacc : ∀ i, i < j →
      env.tud_cdc_n_write (calls_before retries i + retries i) (64 * i)
          (MIN 64 (len - 64 * i)) % UINT32_MOD
        = MIN 64 (len - 64 * i)) :
    ∀ i, i ≤ j →
      rtt_write_run env len (calls_before retries i + i)
          (.loop_head 0 { writes := 0, readings := 0, trace := [] })
        = .loop_head (64 * i)
            { writes := calls_before retries i, readings := calls_before retries i,
              trace := accepted_trace env len retries i } := by
  intro i
  induction i with
  | zero => intro _; rfl
  | succ i ih =>
    intro hi
    have hij : i < j := by omega
    have hlti : 64 * i < len := by omega
    have hs : sub32 len (64 * i) = len - 64 * i := sub32_of_le (by omega) hlen
    have hp : add32 (64 * i) 64 = 64 * (i + 1) := by
      unfold add32
      rw [mod32_of_lt (by omega)]
      ring
    rw [show calls_before retries (i + 1) + (i + 1)
        = (calls_before retries i + i) + (1 + (retries i + 1)) by
      simp only [calls_before]; omega]
    rw [run_add, ih (by omega), run_add, run_one, step_enter hlti, hs, run_add,
      run_retries env len (64 * i) (MIN 64 (len - 64 * i))
        (clock_reading env (calls_before retries i)) (retries i)
        { writes := calls_before retries i, readings := calls_before retries i + 1,
          trace := accepted_trace env len retries i }
        (fun t ht => hfail i hij t ht) (fun t ht => hearly i hij t ht),
      run_one, step_accept (hacc i hij), hp]
    simp only [calls_before, accepted_trace, Config.loop_head.injEq, IoLog.mk.injEq,
      true_and]
    exact ⟨by omega, by omega, trivial⟩

theorem accepted_trace_mem (env : Env) (len : Nat) (retries : Nat → Nat) :
    ∀ (j i : Nat), i < j →
      Event.write (64 * i) (MIN 64 (len - 64 * i)) (MIN 64 (len - 64 * i))
        ∈ accepted_trace env len retries j := by
  intro j
  induction j with
  | zero => intro i hi; omega
  | succ j ih =>
    intro i hi
    rw [accepted_trace]
    by_cases hij : i < j
    · exact List.mem_append_left _ (List.mem_append_left _ (ih i hij))
    · have : i = j := by omega
      subst this
      exact List.mem_append_right _ (List.mem_singleton.2 rfl)

/-- C7: timeout after earlier chunks went out. Let `len > 64`,
`1 <= j < ceil(len/64)` and the gate be open. Let the transport accept each of
the first `j` chunks in full, chunk `k` after `retries k` failed attempts
(possibly none) that all come less than 25 ms after that chunk's start reading,
and let it then refuse chunk `j + 1` at every attempt up to a clock reading
that is at least 25 ms after the start time read for that chunk. Then
`rtt_write(0, buf, len)` returns 0, which is not the partial count `64 * j`; it
makes no flush; and the transport's view is what it saw of the first `j`
chunks, each of them there as an accepted write, followed only by the failed
attempts at chunk `j + 1`. -/
theorem write_timeout_after_accepted_chunks (env : Env) (len j d : Nat)
    (retries : Nat → Nat)
    (hlen : len < UINT32_MOD) (h64 : 64 < len) (hj1 : 1 ≤ j) (hj : j < chunk_count len)
    (hcfg : env.usb_get_config = true) (hdtr : env.gdb_serial_get_dtr = true)
    (hcon : env.tud_cdc_n_connected = true)
    (hfail : ∀ i, i < j → ∀ t, t < retries i →
      env.tud_cdc_n_write (calls_before retries i + t) (64 * i) (MIN 64 (len - 64 * i))
          % UINT32_MOD
        ≠ MIN 64 (len - 64 * i))
    (hearly : ∀ i, i < j → ∀ t, t < retries i →
      sub32 (clock_reading env (calls_before retries i + 1 + t))
        (clock_reading env (calls_before retries i)) < 25)
    (hacc : ∀ i, i < j →
      env.tud_cdc_n_write (calls_before retries i + retries i) (64 * i)
          (MIN 64 (len - 64 * i)) % UINT32_MOD
        = MIN 64 (len - 64 * i))
    (hrej : ∀ i, i ≤ d →
      env.tud_cdc_n_write (calls_before retries j + i) (64 * j) (MIN 64 (len - 64 * j))
          % UINT32_MOD
        ≠ MIN 64 (len - 64 * j))
    (hdead : 25 ≤ sub32 (clock_reading env (calls_before retries j + 1 + d))
      (clock_reading env (calls_before retries j))) :
    ∃ fuel n, 1 ≤ n ∧ n ≤ d + 1 ∧
      rtt_write env 0 len fuel
        = some (0,
            { writes := calls_before retries j + n,
              readings := calls_before retries j + 1 + n,
              trace := accepted_trace env len retries j
                ++ attempt_writes env (64 * j) (MIN 64 (len - 64 * j))
                    (calls_before retries j) n }) ∧
      0 ≠ 64 * j ∧
      Event.flush ∉
        accepted_trace env len retries j
          ++ attempt_writes env (64 * j) (MIN 64 (len - 64 * j))
              (calls_before retries j) n ∧
      ∀ i, i < j →
        Event.write (64 * i) (MIN 64 (len - 64 * i)) (MIN 64 (len - 64 * i))
          ∈ accepted_trace env len retries j := by
  have hlt : 64 * j < len := by unfold chunk_count at hj; omega
  have hreach : rtt_write_run env len (calls_before retries j + j) (rtt_write_entry env 0 len)
      = .loop_head (64 * j)
          { writes := calls_before retries j, readings := calls_before retries j,
            trace := accepted_trace env len retries j } := by
    rw [entry_gate_open (by omega) hcfg hdtr hcon]
    exact run_accepted_chunks env len j retries hlen hlt hfail hearly hacc j (Nat.le_refl j)
  obtain ⟨fuel, n, h1, h2, hrun, hne, hnf, _⟩ :=
    abort_after_reaching_chunk env len j (calls_before retries j + j) d
      { writes := calls_before retries j, readings := calls_before retries j,
        trace := accepted_trace env len retries j }
      hlen h64 hj1 hj hreach hrej hdead
  exact ⟨fuel, n, h1, h2, hrun, hne, hnf, accepted_trace_mem env len retries j⟩

/-- Witness for C7: 200 bytes and `j = 2`. Chunk 1 is accepted at once, chunk 2
after one partial acceptance of 10 bytes, chunk 3 never; its start reading is
1030 and the reading 1060 ends the call with 0 after three failed attempts. -/
theorem write_timeout_after_accepted_chunks_witness :
    ∃ fuel n, 1 ≤ n ∧ n ≤ 2 + 1 ∧
      rtt_write accept_two_chunks 0 200 fuel
        = some (0,
            { writes := 3 + n, readings := 3 + 1 + n,
              trace := [Event.write 0 64 64, Event.write 64 64 10, Event.write 64 64 64]
                ++ attempt_writes accept_two_chunks 128 64 3 n }) ∧
      0 ≠ 64 * 2 ∧
      Event.flush ∉
        [Event.write 0 64 64, Event.write 64 64 10, Event.write 64 64 64]
          ++ attempt_writes accept_two_chunks 128 64 3 n ∧
      ∀ i, i < 2 →
        Event.write (64 * i) (MIN 64 (200 - 64 * i)) (MIN 64 (200 - 64 * i))
          ∈ accepted_trace accept_two_chunks 200 (fun i => if i = 1 then 1 else 0) 2 :=
  write_timeout_after_accepted_chunks accept_two_chunks 200 2 2
    (fun i => if i = 1 then 1 else 0)
    (by decide) (by decide) (by decide) (by decide) rfl rfl rfl
    (by decide) (by decide) (by decide) (by decide) (by decide)

end RttIf
